import Mathlib

/-!
Verification of the retrieval-augmented research assistant.

Shallow embedding of the core algorithms of the repository:

* `compute_category_targets` — weighted quota allocation
  (`src/utils/dataset_utils.py`);
* `truncate_by_sentences`, `_format_context`,
  `_dedup_by_id_keep_best_distance` — retrieval helpers
  (`src/rag/retriever.py`);
* `build_messages`, `_is_compliant`, `generate` — answer generation
  (`src/rag/prompting.py`, `src/rag/generator.py`);
* `extract_used_ids`, `filter_citations`, `filter_context_by_ids`,
  `answerPayload` — citation reconciliation (`src/server/app.py`).

Python machine floats in the allocator are idealized as exact real
arithmetic; since the embedding takes integer weights, the floored
proportional shares are expressed with integer floor division
(`(n * w) / W = ⌊n * (w / W : ℝ)⌋` for `W > 0`).  The two `while`
loops of the allocator are embedded with an explicit fuel parameter;
`none` means the fuel was exhausted, and the fuel actually supplied is
proved sufficient below.
-/

/-! ### Quota allocation (`src/utils/dataset_utils.py`, `compute_category_targets`) -/

/-- Pairs every element with its index, starting at `i`
(models Python `range(len(...))` paired with element access). -/
def withIdx {α : Type} : ℕ → List α → List (ℕ × α)
  | _, [] => []
  | i, w :: ws => (i, w) :: withIdx (i + 1) ws

/-- Fold computing the first index holding the maximum weight
(Python `max(range(n), key=...)` keeps the first occurrence of the maximum). -/
def argmaxAux : List (ℕ × ℤ) → ℕ × ℤ → ℕ
  | [], best => best.1
  | p :: rest, best => argmaxAux rest (if best.2 < p.2 then p else best)

/-- Index of the first category with the largest weight
(`max_idx = max(range(len(int_alloc)), key=lambda i: cats[i]["weight"])`). -/
def argmaxWeight (weights : List ℤ) : ℕ :=
  match withIdx 0 weights with
  | [] => 0
  | p :: rest => argmaxAux rest p

/-- Strict lexicographic comparison on `(weight, quota)` keys, as used by
Python `min(..., key=lambda i: (cats[i]["weight"], int_alloc[i]))`. -/
def keyLt (a b : ℤ × ℕ) : Bool :=
  decide (a.1 < b.1) || (decide (a.1 = b.1) && decide (a.2 < b.2))

/-- Fold computing the first index holding the lexicographically least
`(weight, quota)` key (Python `min` keeps the first occurrence). -/
def argminAux : List (ℕ × ℤ × ℕ) → ℕ × ℤ × ℕ → ℕ
  | [], best => best.1
  | p :: rest, best => argminAux rest (if keyLt p.2 best.2 then p else best)

/-- Index of the first category with the least `(weight, quota)` key. -/
def argminWQ (weights : List ℤ) (alloc : List ℕ) : ℕ :=
  match withIdx 0 (weights.zip alloc) with
  | [] => 0
  | p :: rest => argminAux rest p

/-- The `while current_total < max_papers` loop: add one to the
largest-weight category.  `fuel` bounds the number of iterations; the
main function supplies fuel proved sufficient below. -/
def inc_loop (weights : List ℤ) (max_papers : ℕ) :
    ℕ → List ℕ → ℕ → Option (List ℕ × ℕ)
  | fuel, alloc, total =>
    if total < max_papers then
      match fuel with
      | 0 => none
      | f + 1 =>
        let i := argmaxWeight weights
        inc_loop weights max_papers f (alloc.set i (alloc.getD i 0 + 1)) (total + 1)
    else some (alloc, total)

/-- The `while current_total > max_papers` loop: subtract one from the
least-`(weight, quota)` category, but never below 1; if that category is
already at 1, break out of the loop. -/
def dec_loop (weights : List ℤ) (max_papers : ℕ) :
    ℕ → List ℕ → ℕ → Option (List ℕ × ℕ)
  | fuel, alloc, total =>
    if max_papers < total then
      let i := argminWQ weights alloc
      if 1 < alloc.getD i 0 then
        match fuel with
        | 0 => none
        | f + 1 =>
          dec_loop weights max_papers f (alloc.set i (alloc.getD i 0 - 1)) (total - 1)
      else some (alloc, total)
    else some (alloc, total)

/-- The allocation before the correction loops: proportional shares
floored at 1 (`int_alloc = [max(int(max_papers * w / total_weight), 1)]`),
then, when that sum exceeds `max_papers`, the proportional scale-down
(`int_alloc = [max(int(n * factor), 1)]` with `factor = max_papers /
current_total`).  `int(...)` is embedded as integer floor division of
the exact products (see the module header); the composition with
`max(..., 1)` makes floor and Python's truncation-toward-zero agree on
every input. -/
def initial_alloc (weights : List ℤ) (max_papers : ℕ) : List ℕ :=
  let total_weight := weights.sum
  let raw_floor := weights.map (fun w => ((max_papers : ℤ) * w / total_weight).toNat)
  let int_alloc := raw_floor.map (fun n => max n 1)
  let t0 := int_alloc.sum
  if max_papers < t0 then
    int_alloc.map (fun (n : ℕ) => max (((n : ℤ) * (max_papers : ℤ) / (t0 : ℤ)).toNat) 1)
  else int_alloc

/-- Embedding of `compute_category_targets`: fail when the total weight
is non-positive, otherwise start from `initial_alloc` and run the two
correction loops, then pair the quotas with the category ids. -/
def compute_category_targets (cats : List (String × ℤ)) (max_papers : ℕ) :
    Except String (List (String × ℕ)) :=
  let weights := cats.map Prod.snd
  let total_weight := weights.sum
  if total_weight ≤ 0 then .error "Total category weight must be > 0"
  else
    let int_alloc1 := initial_alloc weights max_papers
    let t1 := int_alloc1.sum
    match inc_loop weights max_papers max_papers int_alloc1 t1 with
    | none => .error "increment loop exhausted its fuel"
    | some (alloc2, t2) =>
      match dec_loop weights max_papers t2 alloc2 t2 with
      | none => .error "decrement loop exhausted its fuel"
      | some (alloc3, _) =>
        .ok (List.zipWith (fun c n => (c.1, n)) cats alloc3)

/-! ### Retrieval helpers (`src/rag/retriever.py`) -/

/-- The record produced by vector search (`RetrievedDoc` dataclass). -/
structure RetrievedDoc where
  doc_idx : ℕ
  doc_id : String
  title : String
  abstract : String
  distance : ℚ
  rerank_score : Option ℚ := none
deriving DecidableEq

/-- Python `\s` on the ASCII range: the whitespace characters recognized
by `str.strip`, `re.sub(r"\s+", ...)` and `re.split(r"...\s+", ...)`. -/
def isPySpace (c : Char) : Bool :=
  c = ' ' || c = '\t' || c = '\n' || c = '\r' || c = '\x0b' || c = '\x0c'

/-- Models `re.sub(r"\s+", " ", ...)`: every maximal whitespace run
becomes a single space.  The flag records whether the previous character
was part of a whitespace run. -/
def collapseWS : Bool → List Char → List Char
  | _, [] => []
  | prev, c :: rest =>
    if isPySpace c then
      if prev then collapseWS true rest else ' ' :: collapseWS true rest
    else c :: collapseWS false rest

/-- Models Python `str.strip()` (drop leading and trailing whitespace). -/
def stripWS (l : List Char) : List Char :=
  (((l.dropWhile isPySpace).reverse).dropWhile isPySpace).reverse

/-- Python `str.strip()` on strings. -/
def stripString (s : String) : String := String.mk (stripWS s.toList)

/-- Python `str.rstrip()` on strings. -/
def rstripString (s : String) : String :=
  String.mk ((s.toList.reverse.dropWhile isPySpace).reverse)

/-- The normalization prefix of `truncate_by_sentences`:
`re.sub(r"\s+", " ", text).strip()`. -/
def normalizeWS (s : String) : String :=
  String.mk (stripWS (collapseWS false s.toList))

/-- True when the list starts with a whitespace character. -/
def headIsSpace : List Char → Bool
  | [] => false
  | c :: _ => isPySpace c

/-- Models `re.split(r"(?<=[.!?])\s+", text)`: cut after every
sentence-ending punctuation character that is followed by whitespace,
consuming the whitespace run.  `acc` holds the current sentence reversed. -/
def splitSentencesGo (acc : List Char) : List Char → List (List Char)
  | [] => [acc.reverse]
  | c :: rest =>
    if (c = '.' || c = '!' || c = '?') && headIsSpace rest then
      (c :: acc).reverse :: splitSentencesGo [] (rest.dropWhile isPySpace)
    else splitSentencesGo (c :: acc) rest
termination_by l => l.length
decreasing_by
  · rename_i t _h
    have hlen : (t.dropWhile isPySpace).length ≤ t.length :=
      (List.dropWhile_sublist isPySpace).length_le
    simp only [List.length_cons]
    omega
  · rename_i t _h
    simp only [List.length_cons]
    omega

/-- Sentence splitting on strings. -/
def splitSentences (s : String) : List String :=
  (splitSentencesGo [] s.toList).map String.mk

/-- The sentence-accumulation loop of `truncate_by_sentences`: append a
sentence only while `total + len(s) + 1` stays within `max_chars`. -/
def takeSentences (max_chars : ℕ) : ℕ → List String → List String
  | _, [] => []
  | total, s :: rest =>
    if max_chars < total + s.length + 1 then []
    else s :: takeSentences max_chars (total + s.length + 1) rest

/-- Python `sep.join(l)`. -/
def joinSep (sep : String) : List String → String
  | [] => ""
  | [s] => s
  | s :: rest => s ++ sep ++ joinSep sep rest

/-- Embedding of `truncate_by_sentences`: normalize whitespace, return
the normalized text if it fits, otherwise keep whole leading sentences
and append the ellipsis marker `" …"`. -/
def truncate_by_sentences (text : String) (max_chars : ℕ) : String :=
  let t := normalizeWS text
  if t.length ≤ max_chars then t
  else
    rstripString (joinSep " " (takeSentences max_chars 0 (splitSentences t))) ++ " …"

/-- The per-document context block of `_format_context`
(`f"DOC [{id}]\nTitle: {title}\nAbstract: {abstract}\n"`). -/
def mkDocBlock (d : RetrievedDoc) : String :=
  "DOC [" ++ d.doc_id ++ "]\n" ++ "Title: " ++ d.title ++ "\n" ++
    "Abstract: " ++ d.abstract ++ "\n"

/-- The block-accumulation loop of `_format_context`: append a block
only while the running total of block lengths stays within `max_chars`
(the `"\n---\n"` separators are not counted by the loop). -/
def formatChunks (max_chars : ℕ) : List RetrievedDoc → ℕ → List String
  | [], _ => []
  | d :: rest, total =>
    let block := mkDocBlock d
    if max_chars < total + block.length then []
    else block :: formatChunks max_chars rest (total + block.length)

/-- Embedding of `_format_context`: joined selected blocks. -/
def _format_context (docs : List RetrievedDoc) (max_chars : ℕ) : String :=
  joinSep "\n---\n" (formatChunks max_chars docs 0)

/-- First element of `best` whose `doc_id` matches (models `dict.get`). -/
def lookupById (best : List RetrievedDoc) (id : String) : Option RetrievedDoc :=
  best.find? (fun b => b.doc_id == id)

/-- Replace the (unique) entry whose `doc_id` matches `d`'s, in place
(models Python dict assignment to an existing key). -/
def replaceById (best : List RetrievedDoc) (d : RetrievedDoc) : List RetrievedDoc :=
  match best with
  | [] => []
  | b :: rest => if b.doc_id == d.doc_id then d :: rest else b :: replaceById rest d

/-- One iteration of the dedup loop: keep the incoming document only
when its id is new or its distance strictly improves the stored one. -/
def dedupStep (best : List RetrievedDoc) (d : RetrievedDoc) : List RetrievedDoc :=
  match lookupById best d.doc_id with
  | none => best ++ [d]
  | some prev => if d.distance < prev.distance then replaceById best d else best

/-- Embedding of `_dedup_by_id_keep_best_distance`: a fold over the
candidates into an insertion-ordered association list, returning its
values (Python dict preserves insertion order). -/
def _dedup_by_id_keep_best_distance (docs : List RetrievedDoc) : List RetrievedDoc :=
  docs.foldl dedupStep []

/-- Specification invariant of the dedup fold: after processing
`processed`, the state `best` has pairwise distinct ids, covers exactly
the ids of `processed`, and each stored entry is a processed document of
minimal distance among the processed documents sharing its id. -/
def DedupInv (processed best : List RetrievedDoc) : Prop :=
  (best.map RetrievedDoc.doc_id).Nodup
  ∧ (∀ id, (∃ b ∈ best, b.doc_id = id) ↔ ∃ p ∈ processed, p.doc_id = id)
  ∧ ∀ b ∈ best,
      b ∈ processed ∧ ∀ p ∈ processed, p.doc_id = b.doc_id → b.distance ≤ p.distance

/-! ### Answer generation (`src/rag/prompting.py`, `src/rag/generator.py`) -/

/-- An OpenAI-style chat message (`{"role": ..., "content": ...}`). -/
structure Msg where
  role : String
  content : String
deriving DecidableEq

/-- The fixed system instruction of `build_messages` (apostrophes are
written with the `\x27` escape). -/
def systemPrompt : String :=
  "You are a research assistant.\n" ++
  "STRICT RULES:\n" ++
  "- Use ONLY the provided context documents.\n" ++
  "- Answer the user\x27s question directly and specifically. Do not provide general background unless asked.\n" ++
  "- Do NOT use outside knowledge or assumptions; use only what is explicitly stated in the context.\n" ++
  "- Cite every non-trivial factual claim with citation IDs like [2512.00772v1].\n" ++
  "- You may write short connective phrases without citations.\n" ++
  "- Only use citation IDs that appear in the provided context. Do not invent IDs.\n" ++
  "- When a claim is primarily supported by one document, add the \x27[paper_id]\x27 after the relevant sentence.\n" ++
  "- Only mention a fact if you cite a source that explicitly supports that fact.\n" ++
  "- If the context is insufficient or off-topic, say what\x27s missing and what you\x27d need.\n" ++
  "- If multiple sources in the provided context are relevant, synthesize them; do not rely on only one source unless only one is relevant.\n" ++
  "- Aim to use 3-7 sources when the context supports it.\n" ++
  "- If the user requests a specific number of items (e.g., \x27at least 5 advantages and disadvantages\x27), you MUST provide at least that many items.\n" ++
  "- If you cannot find enough supported items in the context, output as many as are supported and then add: \x27Missing information:\x27 stating how many more items are needed and what kind of sources would support them.\n" ++
  "- Each item must be explicitly supported by the context and include an inline citation.\n" ++
  "- Choose exactly ONE label and keep it consistent throughout the answer:\n" ++
  "  (A) Supported by the sources\n" ++
  "  (B) Partially supported (related evidence, but not a direct answer)\n" ++
  "  (C) Not addressed by the sources\n" ++
  "- Consistency rule:\n" ++
  "  Choose (A) only if the sources directly answer the question as asked; if you infer broader implications (e.g., \x27benefits to humankind\x27) from narrower findings, choose (B)." ++
  "  If you choose (C), do NOT introduce related explanations/implications from the context.\n" ++
  "  If the context contains related but indirect evidence, choose (B) instead.\n" ++
  "\n" ++
  "REQUIRED OUTPUT STRUCTURE:\n" ++
  "Start with a direct answer in 1–2 sentences that includes the chosen label (A/B/C).\n" ++
  "Then write a short explanatory paragraph grounded in the context (with inline citations).\n" ++
  "If needed, add a short paragraph starting with \x27Missing information:\x27 describing what evidence is required.\n" ++
  "End with: Sources used in the following format \x27[doc_id]: [doc_title]\x27\n"

/-- The user message of `build_messages`, embedding the question and the
rendered context. -/
def userPrompt (user_query retrieved_context : String) : String :=
  "User question:\n" ++ stripString user_query ++ "\n\n" ++
  "Context documents:\n" ++ stripString retrieved_context ++ "\n\n" ++
  "Task:\n" ++
  "- Identify 3-6 most relevant facts from the context that answer the question.\n" ++
  "- Use only those facts to write the final answer in the required format.\n" ++
  "- Keep the answer concise and focused on the question, unless the question asks for depth.\n" ++
  "- Use at least 2 sources if the context contains them and they are relevant."

/-- Embedding of `build_messages`: one system message, one user message. -/
def build_messages (user_query retrieved_context : String) : List Msg :=
  [⟨"system", systemPrompt⟩, ⟨"user", userPrompt user_query retrieved_context⟩]

/-- Whether `pat` is an initial segment of `l` (helper for substring search). -/
def leadsWith : List Char → List Char → Bool
  | [], _ => true
  | _ :: _, [] => false
  | a :: as, b :: bs => (a = b) && leadsWith as bs

/-- Whether `pat` occurs as a contiguous run inside `l`. -/
def hasSub (pat : List Char) : List Char → Bool
  | [] => leadsWith pat []
  | c :: rest => leadsWith pat (c :: rest) || hasSub pat rest

/-- Python `pat in s` substring test. -/
def strHas (s pat : String) : Bool := hasSub pat.toList s.toList

/-- Embedding of `AnswerGenerator._is_compliant`: the text must contain
the literal marker `"Sources used:"` and both bracket characters. -/
def _is_compliant (text : String) : Bool :=
  strHas text "Sources used:" && (strHas text "[" && strHas text "]")

/-- The corrective user message appended before the single retry. -/
def retry_message : Msg :=
  ⟨"user",
    "You did not follow the required format (citations + Sources used). " ++
      "Rewrite and strictly follow the format."⟩

/-- Embedding of `AnswerGenerator.generate`.  The chat backend (either
provider) is modeled as an oracle from a message sequence and a
temperature to the produced text; alongside the answer the embedding
returns the trace of backend calls actually made, so that the bounded
retry protocol can be stated.  First call at the configured temperature;
if the output is non-compliant, one retry at temperature 0 with the
corrective message appended, returned without re-checking. -/
def generate (backend : List Msg → ℚ → String) (temperature : ℚ)
    (user_query retrieved_context : String) : String × List (List Msg × ℚ) :=
  let messages := build_messages user_query retrieved_context
  let out := backend messages temperature
  if _is_compliant out then (out, [(messages, temperature)])
  else
    let messages_retry := messages ++ [retry_message]
    (backend messages_retry 0, [(messages, temperature), (messages_retry, 0)])

/-! ### Citation reconciliation (`src/server/app.py`) -/

/-- Consume exactly `n` digits; return the digits and the remainder. -/
def matchDigitsN : ℕ → List Char → Option (List Char × List Char)
  | 0, l => some ([], l)
  | _ + 1, [] => none
  | n + 1, c :: rest =>
    if c.isDigit then (matchDigitsN n rest).map (fun p => (c :: p.1, p.2)) else none

/-- Consume one expected character. -/
def expectC (ch : Char) : List Char → Option (List Char)
  | [] => none
  | c :: rest => if c = ch then some rest else none

/-- Consume the maximal leading digit run (greedy `\d+`). -/
def takeDigits : List Char → List Char × List Char
  | [] => ([], [])
  | c :: rest =>
    if c.isDigit then
      let p := takeDigits rest
      (c :: p.1, p.2)
    else ([], c :: rest)

/-- Attempt to match `CITATION_RE = \[(\d{4}\.\d{5}v\d+)\]` at the head
of the input; on success return the captured identifier and the input
remaining after the closing bracket. -/
def matchCitationAt (l : List Char) : Option (String × List Char) :=
  match expectC '[' l with
  | none => none
  | some r1 =>
    match matchDigitsN 4 r1 with
    | none => none
    | some (d1, r2) =>
      match expectC '.' r2 with
      | none => none
      | some r3 =>
        match matchDigitsN 5 r3 with
        | none => none
        | some (d2, r4) =>
          match expectC 'v' r4 with
          | none => none
          | some r5 =>
            let p := takeDigits r5
            if p.1.isEmpty then none
            else
              match expectC ']' p.2 with
              | none => none
              | some r6 => some (String.mk (d1 ++ '.' :: (d2 ++ 'v' :: p.1)), r6)

/-- Left-to-right, non-overlapping scan for `CITATION_RE` matches
(models `re.finditer`); `fuel` is instantiated with the input length,
which is proved sufficient below. -/
def scanAux : ℕ → List Char → List String
  | 0, _ => []
  | _ + 1, [] => []
  | fuel + 1, c :: rest =>
    match matchCitationAt (c :: rest) with
    | some p => p.1 :: scanAux fuel p.2
    | none => scanAux fuel rest

/-- All capture groups of `CITATION_RE.finditer`, in match order. -/
def scanCitations (l : List Char) : List String := scanAux l.length l

/-- The shape of a citation identifier: four digits, a dot, five digits,
the letter `v`, one or more digits, nothing else. -/
def citationShape (s : String) : Bool :=
  match matchDigitsN 4 s.toList with
  | none => false
  | some (_, r2) =>
    match expectC '.' r2 with
    | none => false
    | some r3 =>
      match matchDigitsN 5 r3 with
      | none => false
      | some (_, r4) =>
        match expectC 'v' r4 with
        | none => false
        | some r5 =>
          let p := takeDigits r5
          !p.1.isEmpty && p.2.isEmpty

/-- The first-seen filter of `extract_used_ids`: keep an identifier only
when it was not seen before (`seen` accumulates past identifiers). -/
def seenGo (seen : List String) : List String → List String
  | [] => []
  | x :: xs => if x ∈ seen then seenGo seen xs else x :: seenGo (x :: seen) xs

/-- Embedding of `extract_used_ids`: all `CITATION_RE` capture groups of
the answer, in first-seen order, without duplicates. -/
def extract_used_ids (answer : String) : List String :=
  seenGo [] (scanCitations answer.toList)

/-- Position of the first occurrence of `a` (used to state first-seen
order; equals the list length when `a` is absent). -/
def idxOf (a : String) : List String → ℕ
  | [] => 0
  | b :: l => if b = a then 0 else idxOf a l + 1

/-- One citation dictionary of the `/answer` response
(`{"doc_id", "title", "distance", "rerank_score", "url"}`). -/
structure CitationOut where
  doc_id : String
  title : String
  distance : ℚ
  rerank_score : Option ℚ
  url : Option String
deriving DecidableEq

/-- Embedding of `filter_citations`: keep citations whose `doc_id` was used. -/
def filter_citations (all_citations : List CitationOut) (used_ids : List String) :
    List CitationOut :=
  all_citations.filter (fun c => used_ids.contains c.doc_id)

/-- Split a character list at every occurrence of the literal separator
`"\n---\n"` (models `DOC_SPLIT_RE.split`, a literal five-character
pattern).  When the separator is found at the head, the whole match is
consumed: one character by the pattern match, four by `drop`. -/
def splitOnSepGo (acc : List Char) : List Char → List (List Char)
  | [] => [acc.reverse]
  | c :: rest =>
    if leadsWith ('\n' :: '-' :: '-' :: '-' :: '\n' :: []) (c :: rest) then
      acc.reverse :: splitOnSepGo [] (rest.drop 4)
    else splitOnSepGo (c :: acc) rest
termination_by l => l.length
decreasing_by
  · rename_i t _h
    have hd : (t.drop 4).length ≤ t.length := (List.drop_sublist 4 t).length_le
    simp only [List.length_cons]
    omega
  · rename_i t _h
    simp only [List.length_cons]
    omega

/-- `DOC_SPLIT_RE.split` on strings. -/
def splitDocSep (s : String) : List String :=
  (splitOnSepGo [] s.toList).map String.mk

/-- The lazy capture of `DOC_ID_RE`: the shortest run of characters
followed by `]` and then only whitespace up to the end of the line. -/
def lazyCapture (acc : List Char) : List Char → Option String
  | [] => none
  | c :: rest =>
    if c = ']' && rest.all isPySpace then some (String.mk acc.reverse)
    else lazyCapture (c :: acc) rest

/-- Match `DOC_ID_RE = ^DOC\s+\[(.*?)\]\s*$` against one line. -/
def lineDocId : List Char → Option String
  | 'D' :: 'O' :: 'C' :: c :: rest =>
    if isPySpace c then
      match rest.dropWhile isPySpace with
      | '[' :: inner => lazyCapture [] inner
      | _ => none
    else none
  | _ => none

/-- `DOC_ID_RE.search` under `re.MULTILINE`: the first line of the text
that matches, scanning lines top to bottom. -/
def searchDocId (s : String) : Option String :=
  ((s.toList.splitOn '\n').map lineDocId).findSome? id

/-- Overwriting insertion into an association list (Python dict
assignment: later values replace earlier ones at the same key). -/
def insertById (k v : String) : List (String × String) → List (String × String)
  | [] => [(k, v)]
  | (k', v') :: rest =>
    if k' = k then (k, v) :: rest else (k', v') :: insertById k v rest

/-- Build the `by_id` dictionary of `filter_context_by_ids`: for each
block (stripped), parse the `DOC [...]` header and store the stripped
block under the parsed identifier. -/
def buildById : List String → List (String × String) → List (String × String)
  | [], m => m
  | b :: rest, m =>
    match searchDocId (stripString b) with
    | some id => buildById rest (insertById id (stripString b) m)
    | none => buildById rest m

/-- First value stored under `k` (models Python dict lookup). -/
def lookupAssoc (m : List (String × String)) (k : String) : Option String :=
  (m.find? (fun p => p.1 == k)).map Prod.snd

/-- Embedding of `filter_context_by_ids`: the DOC blocks matching the
used identifiers, in used-identifier order, dropping identifiers without
a matching block. -/
def filter_context_by_ids (retrieved_context : String) (used_ids : List String) :
    List String :=
  if retrieved_context = "" then []
  else
    let m := buildById (splitDocSep retrieved_context) []
    used_ids.filterMap (fun cid => lookupAssoc m cid)

/-- The `/answer` response payload (fields relevant to reconciliation). -/
structure AnswerPayload where
  answer : String
  citations : List CitationOut
  retrieved_context : List String
  used_ids : List String
deriving DecidableEq

/-- Embedding of the reconciliation part of the `/answer` handler: if
the model cited at least one identifier, filter citations and context
blocks; otherwise fall back to the full citation list and the unsplit
context (empty context yields an empty block list, since the empty
string is falsy in Python). -/
def answerPayload (ans : String) (all_citations : List CitationOut)
    (retrieved_context : String) : AnswerPayload :=
  let used_ids := extract_used_ids ans
  match used_ids with
  | [] =>
    { answer := ans
      citations := all_citations
      retrieved_context := if retrieved_context = "" then [] else [retrieved_context]
      used_ids := used_ids }
  | _ =>
    { answer := ans
      citations := filter_citations all_citations used_ids
      retrieved_context := filter_context_by_ids retrieved_context used_ids
      used_ids := used_ids }

/-! ### Helper lemmas -/

theorem dropWhile_length_le (p : Char → Bool) (l : List Char) :
    (l.dropWhile p).length ≤ l.length :=
  (List.dropWhile_sublist p).length_le

theorem rstripString_length_le (s : String) : (rstripString s).length ≤ s.length := by
  unfold rstripString
  have h := dropWhile_length_le isPySpace s.toList.reverse
  simpa using h

theorem joinSep_length_le (sep : String) (l : List String) :
    (joinSep sep l).length ≤ (l.map (fun s => s.length + sep.length)).sum := by
  induction l with
  | nil => simp [joinSep]
  | cons s rest ih =>
    cases rest with
    | nil => simp [joinSep]
    | cons t ts =>
      simp only [joinSep, List.map_cons, List.sum_cons] at ih ⊢
      rw [String.length_append, String.length_append]
      omega

/-! ### C2: context assembly -/

theorem takeSentences_sum (max_chars : ℕ) :
    ∀ (l : List String) (total : ℕ), total ≤ max_chars →
      ((takeSentences max_chars total l).map (fun s => s.length + 1)).sum + total ≤ max_chars := by
  intro l
  induction l with
  | nil => intro total h; simpa [takeSentences] using h
  | cons s rest ih =>
    intro total h
    by_cases hc : max_chars < total + s.length + 1
    · simp [takeSentences, hc]; omega
    · have h2 : total + s.length + 1 ≤ max_chars := by omega
      have := ih (total + s.length + 1) h2
      simp only [takeSentences, hc, ite_false, List.map_cons, List.sum_cons]
      omega

theorem formatChunks_sum (max_chars : ℕ) :
    ∀ (docs : List RetrievedDoc) (total : ℕ), total ≤ max_chars →
      ((formatChunks max_chars docs total).map String.length).sum + total ≤ max_chars := by
  intro docs
  induction docs with
  | nil => intro total h; simpa [formatChunks] using h
  | cons d rest ih =>
    intro total h
    by_cases hc : max_chars < total + (mkDocBlock d).length
    · simp [formatChunks, hc]; omega
    · have h2 : total + (mkDocBlock d).length ≤ max_chars := by omega
      have := ih (total + (mkDocBlock d).length) h2
      simp only [formatChunks, hc, ite_false, List.map_cons, List.sum_cons]
      omega

theorem formatChunks_mem (max_chars : ℕ) :
    ∀ (docs : List RetrievedDoc) (total : ℕ) (c : String),
      c ∈ formatChunks max_chars docs total → ∃ d, d ∈ docs ∧ c = mkDocBlock d := by
  intro docs
  induction docs with
  | nil => intro total c hc; simp [formatChunks] at hc
  | cons d rest ih =>
    intro total c hc
    by_cases hcond : max_chars < total + (mkDocBlock d).length
    · simp [formatChunks, hcond] at hc
    · simp only [formatChunks, hcond, ite_false, List.mem_cons] at hc
      rcases hc with rfl | hc
      · exact ⟨d, List.mem_cons_self d rest, rfl⟩
      · rcases ih _ _ hc with ⟨d', hd', rfl⟩
        exact ⟨d', List.mem_cons_of_mem d hd', rfl⟩

/-- C2 (amended): context assembly keeps the sum of the block lengths
(excluding the `"\n---\n"` separators) within `max_chars`; every
returned chunk is the whole block of one of the input documents (blocks
are dropped, never truncated); consequently the rendered string is
within `max_chars` plus five characters per separator. -/
theorem format_context_budget (docs : List RetrievedDoc) (max_chars : ℕ) :
    ((formatChunks max_chars docs 0).map String.length).sum ≤ max_chars
    ∧ (∀ c ∈ formatChunks max_chars docs 0, ∃ d, d ∈ docs ∧ c = mkDocBlock d)
    ∧ (_format_context docs max_chars).length
        ≤ max_chars + 5 * (formatChunks max_chars docs 0).length := by
  refine ⟨?_, ?_, ?_⟩
  · have := formatChunks_sum max_chars docs 0 (Nat.zero_le _)
    omega
  · intro c hc
    exact formatChunks_mem max_chars docs 0 c hc
  · have h1 := joinSep_length_le "\n---\n" (formatChunks max_chars docs 0)
    have h2 := formatChunks_sum max_chars docs 0 (Nat.zero_le _)
    have h3 : ((formatChunks max_chars docs 0).map
        (fun s => s.length + ("\n---\n" : String).length)).sum
        = ((formatChunks max_chars docs 0).map String.length).sum
          + ("\n---\n" : String).length * (formatChunks max_chars docs 0).length := by
      induction formatChunks max_chars docs 0 with
      | nil => simp
      | cons x xs ih => simp [ih]; ring
    have h4 : ("\n---\n" : String).length = 5 := by decide
    simp only [h4] at h1 h3
    unfold _format_context
    omega

/-- C2 witness: the amended bound instantiated on two concrete
documents, discharging the membership hypothesis of the second
conjunct at the first returned chunk. -/
theorem format_context_budget_witness :
    ∃ d, d ∈ [(⟨0, "a", "", "", 0, none⟩ : RetrievedDoc), ⟨1, "b", "", "", 0, none⟩]
      ∧ "DOC [a]\nTitle: \nAbstract: \n" = mkDocBlock d :=
  (format_context_budget [⟨0, "a", "", "", 0, none⟩, ⟨1, "b", "", "", 0, none⟩] 55).2.1
    "DOC [a]\nTitle: \nAbstract: \n" (by decide)

/-- C2 counterexample: with budget 55 and two documents whose blocks are
27 characters each, both blocks are kept (27 + 27 = 54 ≤ 55) but the
rendered context has length 59 > 55 because the `"\n---\n"` separator is
not counted — the claim "including the separators" is false. -/
theorem format_context_counterexample :
    55 < (_format_context [(⟨0, "a", "", "", 0, none⟩ : RetrievedDoc),
      ⟨1, "b", "", "", 0, none⟩] 55).length := by decide

/-! ### C3: sentence-boundary truncation -/

/-- C3 (amended): `truncate_by_sentences` never returns more than
`max_chars` plus the two characters of the ellipsis marker `" …"`, and
whenever the whitespace-normalized input fits in `max_chars` it returns
that normalized input (not the exact input: whitespace runs are
collapsed and the ends stripped before the length test). -/
theorem truncate_by_sentences_spec (text : String) (max_chars : ℕ) :
    (truncate_by_sentences text max_chars).length ≤ max_chars + 2
    ∧ ((normalizeWS text).length ≤ max_chars →
        truncate_by_sentences text max_chars = normalizeWS text) := by
  unfold truncate_by_sentences
  by_cases h : (normalizeWS text).length ≤ max_chars
  · simp only [h, ite_true]
    refine ⟨by omega, ?_⟩
    simp
  · simp only [h, ite_false]
    refine ⟨?_, ?_⟩
    · rw [String.length_append]
      have hsum := takeSentences_sum max_chars
        (splitSentences (normalizeWS text)) 0 (Nat.zero_le _)
      have hjoin := joinSep_length_le " "
        (takeSentences max_chars 0 (splitSentences (normalizeWS text)))
      have hsep : (" " : String).length = 1 := by decide
      simp only [hsep] at hjoin
      have hr := rstripString_length_le
        (joinSep " " (takeSentences max_chars 0 (splitSentences (normalizeWS text))))
      have hm : (" …" : String).length = 2 := by decide
      omega
    · intro hc
      exact hc.elim

/-- C3 witness: the amended statement instantiated at a fitting input,
discharging the hypothesis of the second conjunct. -/
theorem truncate_by_sentences_witness :
    truncate_by_sentences "a  b" 10 = normalizeWS "a  b" :=
  (truncate_by_sentences_spec "a  b" 10).2 (by decide)

/-- C3 counterexample: the input `"a  b"` has length 4 ≤ 10, yet
`truncate_by_sentences` returns the normalized `"a b"`, not the exact
input — the "returns the exact input unchanged" part of the claim is
false. -/
theorem truncate_by_sentences_counterexample :
    ("a  b" : String).length ≤ 10
    ∧ truncate_by_sentences "a  b" 10 ≠ "a  b" := by decide

/-! ### C5: bounded compliance retry -/

/-- C5: `generate` calls the backend at most twice; a compliant first
completion (containing the `"Sources used:"` marker and both bracket
characters) is returned unchanged after a single call; a non-compliant
one triggers exactly one retry at temperature 0 with the corrective
message appended to the original sequence, whose output is returned
without re-checking compliance. -/
theorem generate_call_structure (backend : List Msg → ℚ → String) (temperature : ℚ)
    (user_query retrieved_context : String) :
    (generate backend temperature user_query retrieved_context).2.length ≤ 2
    ∧ (_is_compliant (backend (build_messages user_query retrieved_context) temperature)
          = true →
        generate backend temperature user_query retrieved_context
          = (backend (build_messages user_query retrieved_context) temperature,
             [(build_messages user_query retrieved_context, temperature)]))
    ∧ (_is_compliant (backend (build_messages user_query retrieved_context) temperature)
          = false →
        generate backend temperature user_query retrieved_context
          = (backend (build_messages user_query retrieved_context ++ [retry_message]) 0,
             [(build_messages user_query retrieved_context, temperature),
              (build_messages user_query retrieved_context ++ [retry_message], 0)])) := by
  unfold generate
  by_cases h :
      _is_compliant (backend (build_messages user_query retrieved_context) temperature)
  · refine ⟨?_, fun _ => ?_, fun hf => ?_⟩
    · simp [h]
    · simp [h]
    · rw [h] at hf
      exact absurd hf (by simp)
  · have h' :
        _is_compliant (backend (build_messages user_query retrieved_context) temperature)
          = false := by
      simpa using h
    refine ⟨?_, fun ht => ?_, fun _ => ?_⟩
    · simp [h']
    · rw [h'] at ht
      exact absurd ht (by simp)
    · simp [h']

/-- C5 witness: a constant compliant backend is called exactly once and
its output returned unchanged. -/
theorem generate_call_structure_witness :
    generate (fun _ _ => "Answer [1234.12345v1]. Sources used: [1234.12345v1]") 1 "q" "c"
      = ("Answer [1234.12345v1]. Sources used: [1234.12345v1]",
         [(build_messages "q" "c", 1)]) :=
  (generate_call_structure
    (fun _ _ => "Answer [1234.12345v1]. Sources used: [1234.12345v1]") 1 "q" "c").2.1
    (by decide)

/-! ### C7: no-citation fallback of the `/answer` handler -/

/-- C7 (amended): when no citation identifier is extracted from the
answer, the payload carries the full unfiltered citation list, and the
retrieved context as the one-element sequence holding the unsplit
context string when that string is non-empty — but as the empty sequence
when the context string is empty (the empty string is falsy). -/
theorem answer_payload_fallback (ans : String) (all_citations : List CitationOut)
    (retrieved_context : String) (h : extract_used_ids ans = []) :
    (answerPayload ans all_citations retrieved_context).citations = all_citations
    ∧ (answerPayload ans all_citations retrieved_context).retrieved_context
        = (if retrieved_context = "" then [] else [retrieved_context])
    ∧ (answerPayload ans all_citations retrieved_context).used_ids = [] := by
  unfold answerPayload
  rw [h]
  exact ⟨rfl, rfl, rfl⟩

/-- C7 witness: the fallback instantiated at an uncited answer,
discharging the extraction hypothesis. -/
theorem answer_payload_fallback_witness :
    (answerPayload "nothing cited" [⟨"x", "t", 1, none, none⟩] "ctx").citations
        = [⟨"x", "t", 1, none, none⟩]
    ∧ (answerPayload "nothing cited" [⟨"x", "t", 1, none, none⟩] "ctx").retrieved_context
        = (if ("ctx" : String) = "" then [] else ["ctx"])
    ∧ (answerPayload "nothing cited" [⟨"x", "t", 1, none, none⟩] "ctx").used_ids = [] :=
  answer_payload_fallback "nothing cited" [⟨"x", "t", 1, none, none⟩] "ctx" (by decide)

/-- C7 counterexample: an uncited answer together with an empty context
string yields an empty `retrieved_context` sequence, not a one-element
sequence — the claim fails when the retrieved context is empty. -/
theorem answer_payload_counterexample :
    extract_used_ids "nothing cited" = []
    ∧ (answerPayload "nothing cited" [] "").retrieved_context = [] := by decide

/-! ### Allocator lemmas (C1, C8, C9, C10) -/

theorem withIdx_bound {α : Type} :
    ∀ (l : List α) (i : ℕ) (p : ℕ × α), p ∈ withIdx i l → p.1 < i + l.length := by
  intro l
  induction l with
  | nil => intro i p hp; simp [withIdx] at hp
  | cons x xs ih =>
    intro i p hp
    simp only [withIdx, List.mem_cons] at hp
    rcases hp with rfl | hp
    · simp only [List.length_cons]
      omega
    · have := ih (i + 1) p hp
      simp only [List.length_cons]
      omega

theorem argmaxAux_bound :
    ∀ (l : List (ℕ × ℤ)) (best : ℕ × ℤ) (n : ℕ),
      (∀ p ∈ l, p.1 < n) → best.1 < n → argmaxAux l best < n := by
  intro l
  induction l with
  | nil => intro best n _ hb; exact hb
  | cons p rest ih =>
    intro best n hl hb
    unfold argmaxAux
    apply ih
    · intro q hq
      exact hl q (List.mem_cons_of_mem _ hq)
    · by_cases hc : best.2 < p.2
      · rw [if_pos hc]
        exact hl p (List.mem_cons_self _ _)
      · rw [if_neg hc]
        exact hb

theorem argminAux_bound :
    ∀ (l : List (ℕ × ℤ × ℕ)) (best : ℕ × ℤ × ℕ) (n : ℕ),
      (∀ p ∈ l, p.1 < n) → best.1 < n → argminAux l best < n := by
  intro l
  induction l with
  | nil => intro best n _ hb; exact hb
  | cons p rest ih =>
    intro best n hl hb
    unfold argminAux
    apply ih
    · intro q hq
      exact hl q (List.mem_cons_of_mem _ hq)
    · by_cases hc : keyLt p.2 best.2 = true
      · rw [if_pos hc]
        exact hl p (List.mem_cons_self _ _)
      · rw [if_neg hc]
        exact hb

theorem argmaxWeight_lt (w : List ℤ) (hw : w ≠ []) : argmaxWeight w < w.length := by
  unfold argmaxWeight
  cases hl : withIdx 0 w with
  | nil =>
    cases w with
    | nil => exact absurd rfl hw
    | cons x xs => simp [withIdx] at hl
  | cons p rest =>
    apply argmaxAux_bound
    · intro q hq
      have hmem : q ∈ withIdx 0 w := by
        rw [hl]; exact List.mem_cons_of_mem _ hq
      have := withIdx_bound w 0 q hmem
      omega
    · have hmem : p ∈ withIdx 0 w := by
        rw [hl]; exact List.mem_cons_self _ _
      have := withIdx_bound w 0 p hmem
      omega

theorem argminWQ_lt (w : List ℤ) (alloc : List ℕ) (hw : w ≠ [])
    (hlen : alloc.length = w.length) : argminWQ w alloc < alloc.length := by
  unfold argminWQ
  have hzlen : (w.zip alloc).length = alloc.length := by
    rw [List.length_zip]
    omega
  cases hl : withIdx 0 (w.zip alloc) with
  | nil =>
    cases hz : w.zip alloc with
    | nil =>
      rw [hz] at hzlen
      cases w with
      | nil => exact absurd rfl hw
      | cons x xs =>
        exfalso
        rw [hlen] at hzlen
        simp only [List.length_nil, List.length_cons] at hzlen
        omega
    | cons x xs =>
      rw [hz] at hl
      simp [withIdx] at hl
  | cons p rest =>
    apply argminAux_bound
    · intro q hq
      have hmem : q ∈ withIdx 0 (w.zip alloc) := by
        rw [hl]; exact List.mem_cons_of_mem _ hq
      have := withIdx_bound (w.zip alloc) 0 q hmem
      omega
    · have hmem : p ∈ withIdx 0 (w.zip alloc) := by
        rw [hl]; exact List.mem_cons_self _ _
      have := withIdx_bound (w.zip alloc) 0 p hmem
      omega

theorem sum_set_getD :
    ∀ (l : List ℕ) (i v : ℕ), i < l.length →
      (l.set i v).sum + l.getD i 0 = l.sum + v := by
  intro l
  induction l with
  | nil => intro i v h; simp at h
  | cons x xs ih =>
    intro i v h
    cases i with
    | zero =>
      simp only [List.set, List.getD, List.sum_cons]
      simp [List.getD]
      omega
    | succ j =>
      have hj : j < xs.length := by simpa using h
      have := ih j v hj
      simp only [List.set, List.getD_cons_succ, List.sum_cons]
      omega

theorem inc_loop_some (w : List ℤ) (N : ℕ) :
    ∀ (fuel : ℕ) (alloc : List ℕ) (total : ℕ), N ≤ total + fuel →
      ∃ a t, inc_loop w N fuel alloc total = some (a, t) := by
  intro fuel
  induction fuel with
  | zero =>
    intro alloc total hN
    refine ⟨alloc, total, ?_⟩
    unfold inc_loop
    rw [if_neg (by omega)]
  | succ f ih =>
    intro alloc total hN
    by_cases hc : total < N
    · obtain ⟨a, t, ht⟩ := ih
        (alloc.set (argmaxWeight w) (alloc.getD (argmaxWeight w) 0 + 1)) (total + 1)
        (by omega)
      refine ⟨a, t, ?_⟩
      unfold inc_loop
      rw [if_pos hc]
      exact ht
    · refine ⟨alloc, total, ?_⟩
      unfold inc_loop
      rw [if_neg hc]

theorem inc_loop_inv (w : List ℤ) (N : ℕ) (hw : w ≠ []) :
    ∀ (fuel : ℕ) (alloc : List ℕ) (total : ℕ) (a : List ℕ) (t : ℕ),
      inc_loop w N fuel alloc total = some (a, t) →
      total = alloc.sum → (∀ x ∈ alloc, 1 ≤ x) → alloc.length = w.length →
      t = a.sum ∧ (∀ x ∈ a, 1 ≤ x) ∧ a.length = w.length ∧ N ≤ t := by
  intro fuel
  induction fuel with
  | zero =>
    intro alloc total a t heq hsum hone hlen
    unfold inc_loop at heq
    by_cases hc : total < N
    · rw [if_pos hc] at heq
      exact absurd heq (by simp)
    · rw [if_neg hc] at heq
      have hpair := Option.some.inj heq
      have ha : alloc = a := congrArg Prod.fst hpair
      have ht : total = t := congrArg Prod.snd hpair
      subst ha
      subst ht
      exact ⟨hsum, hone, hlen, by omega⟩
  | succ f ih =>
    intro alloc total a t heq hsum hone hlen
    unfold inc_loop at heq
    by_cases hc : total < N
    · rw [if_pos hc] at heq
      have hidx : argmaxWeight w < alloc.length := by
        rw [hlen]
        exact argmaxWeight_lt w hw
      apply ih (alloc.set (argmaxWeight w) (alloc.getD (argmaxWeight w) 0 + 1)) (total + 1)
          a t heq
      · have := sum_set_getD alloc (argmaxWeight w) (alloc.getD (argmaxWeight w) 0 + 1) hidx
        omega
      · intro x hx
        rcases List.mem_or_eq_of_mem_set hx with hx' | rfl
        · exact hone x hx'
        · omega
      · rw [List.length_set]
        exact hlen
    · rw [if_neg hc] at heq
      have hpair := Option.some.inj heq
      have ha : alloc = a := congrArg Prod.fst hpair
      have ht : total = t := congrArg Prod.snd hpair
      subst ha
      subst ht
      exact ⟨hsum, hone, hlen, by omega⟩

theorem dec_loop_some (w : List ℤ) (N : ℕ) :
    ∀ (fuel : ℕ) (alloc : List ℕ) (total : ℕ), total ≤ fuel + N →
      ∃ a t, dec_loop w N fuel alloc total = some (a, t) := by
  intro fuel
  induction fuel with
  | zero =>
    intro alloc total hN
    unfold dec_loop
    by_cases hc : N < total
    · exact absurd hc (by omega)
    · refine ⟨alloc, total, ?_⟩
      rw [if_neg hc]
  | succ f ih =>
    intro alloc total hN
    by_cases hc : N < total
    · by_cases hg : 1 < alloc.getD (argminWQ w alloc) 0
      · obtain ⟨a, t, ht⟩ := ih
          (alloc.set (argminWQ w alloc) (alloc.getD (argminWQ w alloc) 0 - 1)) (total - 1)
          (by omega)
        refine ⟨a, t, ?_⟩
        unfold dec_loop
        rw [if_pos hc]
        rw [if_pos hg]
        exact ht
      · refine ⟨alloc, total, ?_⟩
        unfold dec_loop
        rw [if_pos hc]
        rw [if_neg hg]
    · refine ⟨alloc, total, ?_⟩
      unfold dec_loop
      rw [if_neg hc]

theorem dec_loop_inv (w : List ℤ) (N : ℕ) (hw : w ≠ []) :
    ∀ (fuel : ℕ) (alloc : List ℕ) (total : ℕ) (a : List ℕ) (t : ℕ),
      dec_loop w N fuel alloc total = some (a, t) →
      total = alloc.sum → (∀ x ∈ alloc, 1 ≤ x) → alloc.length = w.length → N ≤ total →
      t = a.sum ∧ (∀ x ∈ a, 1 ≤ x) ∧ a.length = w.length ∧ N ≤ t := by
  intro fuel
  induction fuel with
  | zero =>
    intro alloc total a t heq hsum hone hlen hNt
    unfold dec_loop at heq
    by_cases hc : N < total
    · rw [if_pos hc] at heq
      by_cases hg : 1 < alloc.getD (argminWQ w alloc) 0
      · rw [if_pos hg] at heq
        exact absurd heq (by simp)
      · rw [if_neg hg] at heq
        have hpair := Option.some.inj heq
        have ha : alloc = a := congrArg Prod.fst hpair
        have ht : total = t := congrArg Prod.snd hpair
        subst ha
        subst ht
        exact ⟨hsum, hone, hlen, hNt⟩
    · rw [if_neg hc] at heq
      have hpair := Option.some.inj heq
      have ha : alloc = a := congrArg Prod.fst hpair
      have ht : total = t := congrArg Prod.snd hpair
      subst ha
      subst ht
      exact ⟨hsum, hone, hlen, hNt⟩
  | succ f ih =>
    intro alloc total a t heq hsum hone hlen hNt
    unfold dec_loop at heq
    by_cases hc : N < total
    · rw [if_pos hc] at heq
      by_cases hg : 1 < alloc.getD (argminWQ w alloc) 0
      · rw [if_pos hg] at heq
        have hne : alloc ≠ [] := by
          intro he
          rw [he] at hg
          simp [List.getD] at hg
        have hidx : argminWQ w alloc < alloc.length := argminWQ_lt w alloc hw hlen
        apply ih (alloc.set (argminWQ w alloc) (alloc.getD (argminWQ w alloc) 0 - 1))
            (total - 1) a t heq
        · have := sum_set_getD alloc (argminWQ w alloc)
            (alloc.getD (argminWQ w alloc) 0 - 1) hidx
          omega
        · intro x hx
          rcases List.mem_or_eq_of_mem_set hx with hx' | rfl
          · exact hone x hx'
          · omega
        · rw [List.length_set]
          exact hlen
        · omega
      · rw [if_neg hg] at heq
        have hpair := Option.some.inj heq
        have ha : alloc = a := congrArg Prod.fst hpair
        have ht : total = t := congrArg Prod.snd hpair
        subst ha
        subst ht
        exact ⟨hsum, hone, hlen, hNt⟩
    · rw [if_neg hc] at heq
      have hpair := Option.some.inj heq
      have ha : alloc = a := congrArg Prod.fst hpair
      have ht : total = t := congrArg Prod.snd hpair
      subst ha
      subst ht
      exact ⟨hsum, hone, hlen, hNt⟩

theorem initial_alloc_one (w : List ℤ) (N : ℕ) :
    ∀ x ∈ initial_alloc w N, 1 ≤ x := by
  intro x hx
  unfold initial_alloc at hx
  by_cases hc : N < ((w.map (fun v => (((N : ℤ) * v) / w.sum).toNat)).map (fun n => max n 1)).sum
  · simp only [hc, ite_true, List.mem_map] at hx
    obtain ⟨n, _, rfl⟩ := hx
    exact Nat.le_max_right _ 1
  · simp only [hc, ite_false, List.mem_map] at hx
    obtain ⟨n, _, rfl⟩ := hx
    exact Nat.le_max_right _ 1

theorem initial_alloc_length (w : List ℤ) (N : ℕ) :
    (initial_alloc w N).length = w.length := by
  simp only [initial_alloc]
  split
  · simp only [List.length_map]
  · simp only [List.length_map]

theorem zipWith_pair_snd :
    ∀ (cats : List (String × ℤ)) (a : List ℕ), cats.length = a.length →
      (List.zipWith (fun c n => (c.1, n)) cats a).map Prod.snd = a := by
  intro cats
  induction cats with
  | nil =>
    intro a ha
    cases a with
    | nil => rfl
    | cons x xs => simp at ha
  | cons c cs ih =>
    intro a ha
    cases a with
    | nil => simp at ha
    | cons x xs =>
      simp only [List.zipWith_cons_cons, List.map_cons]
      rw [ih xs (by simpa using ha)]

theorem length_le_sum_of_one_le :
    ∀ (l : List ℕ), (∀ x ∈ l, 1 ≤ x) → l.length ≤ l.sum := by
  intro l
  induction l with
  | nil => intro _; simp
  | cons x xs ih =>
    intro h
    have hx := h x (List.mem_cons_self _ _)
    have := ih (fun y hy => h y (List.mem_cons_of_mem _ hy))
    simp only [List.length_cons, List.sum_cons]
    omega

/-- Master lemma: with positive total weight the allocator returns
normally; the result pairs the category ids with quotas that are all at
least 1, and the quota sum is at least `max_papers`. -/
theorem compute_ok (cats : List (String × ℤ)) (N : ℕ)
    (h : ¬ (cats.map Prod.snd).sum ≤ 0) :
    ∃ l, compute_category_targets cats N = Except.ok l
      ∧ l.length = cats.length
      ∧ (∀ q ∈ l.map Prod.snd, 1 ≤ q)
      ∧ N ≤ (l.map Prod.snd).sum := by
  have hw : cats.map Prod.snd ≠ [] := by
    intro he
    rw [he] at h
    simp at h
  have h1 : ∀ x ∈ initial_alloc (cats.map Prod.snd) N, 1 ≤ x :=
    initial_alloc_one (cats.map Prod.snd) N
  have hlen1 : (initial_alloc (cats.map Prod.snd) N).length = (cats.map Prod.snd).length :=
    initial_alloc_length (cats.map Prod.snd) N
  obtain ⟨a2, t2, h2⟩ := inc_loop_some (cats.map Prod.snd) N N
    (initial_alloc (cats.map Prod.snd) N) (initial_alloc (cats.map Prod.snd) N).sum
    (Nat.le_add_left N _)
  have hi2 := inc_loop_inv (cats.map Prod.snd) N hw N
    (initial_alloc (cats.map Prod.snd) N) (initial_alloc (cats.map Prod.snd) N).sum
    a2 t2 h2 rfl h1 hlen1
  obtain ⟨a3, t3, h3⟩ := dec_loop_some (cats.map Prod.snd) N t2 a2 t2 (Nat.le_add_right t2 N)
  have hi3 := dec_loop_inv (cats.map Prod.snd) N hw t2 a2 t2 a3 t3 h3
    hi2.1 hi2.2.1 hi2.2.2.1 hi2.2.2.2
  have hlen3 : a3.length = cats.length := by
    have := hi3.2.2.1
    rw [List.length_map] at this
    exact this
  have hsnd : (List.zipWith (fun c n => (c.1, n)) cats a3).map Prod.snd = a3 :=
    zipWith_pair_snd cats a3 hlen3.symm
  refine ⟨List.zipWith (fun c n => (c.1, n)) cats a3, ?_, ?_, ?_, ?_⟩
  · simp only [compute_category_targets]
    rw [if_neg h]
    simp only [h2, h3]
  · rw [List.length_zipWith]
    omega
  · rw [hsnd]
    exact hi3.2.1
  · rw [hsnd]
    have := hi3.2.2.2
    have hts : t3 = a3.sum := hi3.1
    omega

/-- C1 (amended): for positive weights over a non-empty category list
and target `N` at least the category count, the allocator returns
normally with every quota at least 1 and the quota sum at least `N` —
but not necessarily equal to `N`: the decrement loop can stop early
(see the counterexample), so only `sum ≥ N` holds. -/
theorem compute_targets_sum_ge (cats : List (String × ℤ)) (N : ℕ)
    (hpos : ∀ w ∈ cats.map Prod.snd, 0 < w) (hne : cats ≠ [])
    (_hN : cats.length ≤ N) :
    ∃ l, compute_category_targets cats N = Except.ok l
      ∧ N ≤ (l.map Prod.snd).sum ∧ ∀ q ∈ l.map Prod.snd, 1 ≤ q := by
  have hwne : cats.map Prod.snd ≠ [] := by
    intro he
    exact hne (List.map_eq_nil_iff.mp he)
  have hsum : 0 < (cats.map Prod.snd).sum := List.sum_pos _ hpos hwne
  obtain ⟨l, hl, _, hone, hge⟩ := compute_ok cats N (by omega)
  exact ⟨l, hl, hge, hone⟩

/-- C1 witness: the amended statement instantiated at weights `[1, 2]`
and target `3`, discharging positivity, non-emptiness and
`category count ≤ N`. -/
theorem compute_targets_sum_ge_witness :
    ∃ l, compute_category_targets [("a", 1), ("b", 2)] 3 = Except.ok l
      ∧ 3 ≤ (l.map Prod.snd).sum ∧ ∀ q ∈ l.map Prod.snd, 1 ≤ q :=
  compute_targets_sum_ge [("a", 1), ("b", 2)] 3 (by decide) (by decide) (by decide)

/-- C1 counterexample: five categories with weights `[8, 1, 1, 1, 1]`
and target `N = 5` (so `N` equals the category count and all weights are
positive) yield quotas `[2, 1, 1, 1, 1]` with sum `6 ≠ 5`: after the
scale-down the sum is still 6, and the decrement loop immediately hits a
weight-1 category already at quota 1 and breaks.  (The Python float
computation agrees with the exact arithmetic on this input.) -/
theorem compute_targets_counterexample :
    (∀ w ∈ ([("a", 8), ("b", 1), ("c", 1), ("d", 1), ("e", 1)] :
        List (String × ℤ)).map Prod.snd, 0 < w)
    ∧ ([("a", 8), ("b", 1), ("c", 1), ("d", 1), ("e", 1)] :
        List (String × ℤ)).length ≤ 5
    ∧ (compute_category_targets [("a", 8), ("b", 1), ("c", 1), ("d", 1), ("e", 1)] 5).toOption
        = some [("a", 2), ("b", 1), ("c", 1), ("d", 1), ("e", 1)]
    ∧ ((([("a", 2), ("b", 1), ("c", 1), ("d", 1), ("e", 1)] :
        List (String × ℕ)).map Prod.snd).sum = 6 ∧ (6 : ℕ) ≠ 5) := by decide

/-- C8: `compute_category_targets` fails if and only if the total
category weight is non-positive; every input with positive total weight
returns normally (the loop fuel never runs out). -/
theorem compute_targets_error_iff (cats : List (String × ℤ)) (N : ℕ) :
    (compute_category_targets cats N).toOption = none
      ↔ (cats.map Prod.snd).sum ≤ 0 := by
  constructor
  · intro hn
    by_contra h
    obtain ⟨l, hl, _⟩ := compute_ok cats N h
    rw [hl] at hn
    simp [Except.toOption] at hn
  · intro h
    simp only [compute_category_targets]
    rw [if_pos h]
    rfl

/-- C9: for positive total weight and target `N` below the category
count, the allocator still terminates and returns normally — the
adjustment loops are bounded (the supplied fuel provably suffices). -/
theorem compute_targets_terminates (cats : List (String × ℤ)) (N : ℕ)
    (h0 : 0 < (cats.map Prod.snd).sum) (_hN : N < cats.length) :
    ∃ l, compute_category_targets cats N = Except.ok l := by
  obtain ⟨l, hl, _⟩ := compute_ok cats N (by omega)
  exact ⟨l, hl⟩

/-- C9 witness: three equal-weight categories with target 2: the
decrement loop breaks with the sum still above the target, yet the
call returns normally. -/
theorem compute_targets_terminates_witness :
    ∃ l, compute_category_targets [("a", 1), ("b", 1), ("c", 1)] 2 = Except.ok l :=
  compute_targets_terminates [("a", 1), ("b", 1), ("c", 1)] 2 (by decide) (by decide)

/-- C10: for every input with positive total weight, every returned
quota is at least 1 — for any target `N`, also below the category
count — and hence the quota sum is at least the category count. -/
theorem compute_targets_quota_ge_one (cats : List (String × ℤ)) (N : ℕ)
    (l : List (String × ℕ)) (h0 : 0 < (cats.map Prod.snd).sum)
    (hok : compute_category_targets cats N = Except.ok l) :
    (∀ q ∈ l.map Prod.snd, 1 ≤ q) ∧ cats.length ≤ (l.map Prod.snd).sum := by
  obtain ⟨l', hl', hlen, hone, _⟩ := compute_ok cats N (by omega)
  rw [hl'] at hok
  have hll : l' = l := Except.ok.inj hok
  subst hll
  refine ⟨hone, ?_⟩
  have h1 := length_le_sum_of_one_le (l'.map Prod.snd) hone
  rw [List.length_map] at h1
  omega

/-- C10 witness: the `N < category count` instance `[1, 1, 1]` with
target 2 — quotas `[1, 1, 1]`, all at least 1, summing to the category
count 3 even though the target was 2. -/
theorem compute_targets_quota_ge_one_witness :
    (∀ q ∈ ([("a", 1), ("b", 1), ("c", 1)] : List (String × ℕ)).map Prod.snd, 1 ≤ q)
    ∧ ([("a", (1 : ℤ)), ("b", 1), ("c", 1)] : List (String × ℤ)).length
        ≤ (([("a", 1), ("b", 1), ("c", 1)] : List (String × ℕ)).map Prod.snd).sum :=
  compute_targets_quota_ge_one [("a", 1), ("b", 1), ("c", 1)] 2
    [("a", 1), ("b", 1), ("c", 1)] (by decide) (by rfl)

/-! ### C4: deduplication keeps the best distance -/

theorem lookupById_none (best : List RetrievedDoc) (id : String)
    (h : lookupById best id = none) : ∀ b ∈ best, b.doc_id ≠ id := by
  intro b hb
  have := List.find?_eq_none.mp h b hb
  simpa using this

theorem lookupById_some (best : List RetrievedDoc) (id : String) (prev : RetrievedDoc)
    (h : lookupById best id = some prev) : prev ∈ best ∧ prev.doc_id = id := by
  refine ⟨List.mem_of_find?_eq_some h, ?_⟩
  have := List.find?_some h
  simpa using this

theorem replaceById_ids (d : RetrievedDoc) :
    ∀ (best : List RetrievedDoc), (∃ b ∈ best, b.doc_id = d.doc_id) →
      (replaceById best d).map RetrievedDoc.doc_id = best.map RetrievedDoc.doc_id := by
  intro best
  induction best with
  | nil =>
    rintro ⟨b, hb, -⟩
    exact absurd hb (List.not_mem_nil b)
  | cons x xs ih =>
    intro hex
    unfold replaceById
    by_cases hx : x.doc_id == d.doc_id
    · rw [if_pos hx]
      simp only [List.map_cons]
      have hxd : x.doc_id = d.doc_id := by simpa using hx
      rw [hxd]
    · rw [if_neg hx]
      simp only [List.map_cons]
      have hex' : ∃ b ∈ xs, b.doc_id = d.doc_id := by
        obtain ⟨b, hb, hbid⟩ := hex
        rcases List.mem_cons.mp hb with rfl | hb'
        · exact absurd (by simpa using hbid) hx
        · exact ⟨b, hb', hbid⟩
      rw [ih hex']

theorem replaceById_self_mem (d : RetrievedDoc) :
    ∀ (best : List RetrievedDoc), (∃ b ∈ best, b.doc_id = d.doc_id) →
      d ∈ replaceById best d := by
  intro best
  induction best with
  | nil =>
    rintro ⟨b, hb, -⟩
    exact absurd hb (List.not_mem_nil b)
  | cons x xs ih =>
    intro hex
    unfold replaceById
    by_cases hx : x.doc_id == d.doc_id
    · rw [if_pos hx]
      exact List.mem_cons_self _ _
    · rw [if_neg hx]
      have hex' : ∃ b ∈ xs, b.doc_id = d.doc_id := by
        obtain ⟨b, hb, hbid⟩ := hex
        rcases List.mem_cons.mp hb with rfl | hb'
        · exact absurd (by simpa using hbid) hx
        · exact ⟨b, hb', hbid⟩
      exact List.mem_cons_of_mem _ (ih hex')

theorem replaceById_mem_ne (d : RetrievedDoc) :
    ∀ (best : List RetrievedDoc), (best.map RetrievedDoc.doc_id).Nodup →
      ∀ x ∈ replaceById best d, x = d ∨ (x ∈ best ∧ x.doc_id ≠ d.doc_id) := by
  intro best
  induction best with
  | nil =>
    intro _ x hx
    simp [replaceById] at hx
  | cons y ys ih =>
    intro hnd x hx
    have hnd' : (ys.map RetrievedDoc.doc_id).Nodup :=
      (List.nodup_cons.mp (by simpa using hnd)).2
    have hyny : y.doc_id ∉ ys.map RetrievedDoc.doc_id :=
      (List.nodup_cons.mp (by simpa using hnd)).1
    unfold replaceById at hx
    by_cases hy : y.doc_id == d.doc_id
    · rw [if_pos hy] at hx
      rcases List.mem_cons.mp hx with rfl | hx'
      · exact Or.inl rfl
      · refine Or.inr ⟨List.mem_cons_of_mem _ hx', ?_⟩
        have hyd : y.doc_id = d.doc_id := by simpa using hy
        intro hxd
        apply hyny
        rw [hyd, ← hxd]
        exact List.mem_map_of_mem RetrievedDoc.doc_id hx'
    · rw [if_neg hy] at hx
      rcases List.mem_cons.mp hx with rfl | hx'
      · exact Or.inr ⟨List.mem_cons_self _ _, by simpa using hy⟩
      · rcases ih hnd' x hx' with h1 | ⟨h2, h3⟩
        · exact Or.inl h1
        · exact Or.inr ⟨List.mem_cons_of_mem _ h2, h3⟩

theorem replaceById_mem_of_ne (d : RetrievedDoc) :
    ∀ (best : List RetrievedDoc), ∀ x ∈ best, x.doc_id ≠ d.doc_id →
      x ∈ replaceById best d := by
  intro best
  induction best with
  | nil =>
    intro x hx
    exact absurd hx (List.not_mem_nil x)
  | cons y ys ih =>
    intro x hx hne
    unfold replaceById
    by_cases hy : y.doc_id == d.doc_id
    · rw [if_pos hy]
      rcases List.mem_cons.mp hx with rfl | hx'
      · exact absurd (by simpa using hy) hne
      · exact List.mem_cons_of_mem _ hx'
    · rw [if_neg hy]
      rcases List.mem_cons.mp hx with rfl | hx'
      · exact List.mem_cons_self _ _
      · exact List.mem_cons_of_mem _ (ih x hx' hne)

theorem dedupStep_inv (processed best : List RetrievedDoc) (d : RetrievedDoc)
    (h : DedupInv processed best) : DedupInv (processed ++ [d]) (dedupStep best d) := by
  obtain ⟨hnd, hiff, hmin⟩ := h
  unfold dedupStep
  cases hfind : lookupById best d.doc_id with
  | none =>
    have hnone := lookupById_none best d.doc_id hfind
    have hnoneP : ∀ p ∈ processed, p.doc_id ≠ d.doc_id := by
      intro p hp hpd
      obtain ⟨b, hb, hbid⟩ := (hiff d.doc_id).mpr ⟨p, hp, hpd⟩
      exact hnone b hb hbid
    refine ⟨?_, ?_, ?_⟩
    · rw [List.map_append]
      rw [List.nodup_append]
      refine ⟨hnd, by simp, ?_⟩
      intro a ha hb
      simp only [List.map_cons, List.map_nil, List.mem_singleton] at hb
      subst hb
      obtain ⟨b, hbmem, hbid⟩ := List.mem_map.mp ha
      exact hnone b hbmem hbid
    · intro id
      constructor
      · rintro ⟨b, hb, hbid⟩
        rcases List.mem_append.mp hb with hb' | hb'
        · obtain ⟨p, hp, hpid⟩ := (hiff id).mp ⟨b, hb', hbid⟩
          exact ⟨p, List.mem_append_left _ hp, hpid⟩
        · simp only [List.mem_singleton] at hb'
          subst hb'
          exact ⟨b, List.mem_append_right _ (by simp), hbid⟩
      · rintro ⟨p, hp, hpid⟩
        rcases List.mem_append.mp hp with hp' | hp'
        · obtain ⟨b, hb, hbid⟩ := (hiff id).mpr ⟨p, hp', hpid⟩
          exact ⟨b, List.mem_append_left _ hb, hbid⟩
        · simp only [List.mem_singleton] at hp'
          subst hp'
          exact ⟨p, List.mem_append_right _ (by simp), hpid⟩
    · intro b hb
      rcases List.mem_append.mp hb with hb' | hb'
      · obtain ⟨hbp, hbmin⟩ := hmin b hb'
        refine ⟨List.mem_append_left _ hbp, ?_⟩
        intro p hp hpid
        rcases List.mem_append.mp hp with hp' | hp'
        · exact hbmin p hp' hpid
        · simp only [List.mem_singleton] at hp'
          subst hp'
          exact absurd hpid.symm (hnone b hb')
      · simp only [List.mem_singleton] at hb'
        subst hb'
        refine ⟨List.mem_append_right _ (by simp), ?_⟩
        intro p hp hpid
        rcases List.mem_append.mp hp with hp' | hp'
        · exact absurd hpid (hnoneP p hp')
        · simp only [List.mem_singleton] at hp'
          subst hp'
          exact le_refl _
  | some prev =>
    obtain ⟨hprevmem, hprevid⟩ := lookupById_some best d.doc_id prev hfind
    have hex : ∃ b ∈ best, b.doc_id = d.doc_id := ⟨prev, hprevmem, hprevid⟩
    dsimp only
    by_cases hlt : d.distance < prev.distance
    · rw [if_pos hlt]
      refine ⟨?_, ?_, ?_⟩
      · rw [replaceById_ids d best hex]
        exact hnd
      · intro id
        constructor
        · rintro ⟨b, hb, hbid⟩
          rcases replaceById_mem_ne d best hnd b hb with rfl | ⟨hbm, -⟩
          · obtain ⟨p, hp, hpid⟩ := (hiff id).mp ⟨prev, hprevmem, by rw [hprevid, ← hbid]⟩
            exact ⟨p, List.mem_append_left _ hp, hpid⟩
          · obtain ⟨p, hp, hpid⟩ := (hiff id).mp ⟨b, hbm, hbid⟩
            exact ⟨p, List.mem_append_left _ hp, hpid⟩
        · rintro ⟨p, hp, hpid⟩
          rcases List.mem_append.mp hp with hp' | hp'
          · obtain ⟨b, hb, hbid⟩ := (hiff id).mpr ⟨p, hp', hpid⟩
            by_cases hbd : b.doc_id = d.doc_id
            · exact ⟨d, replaceById_self_mem d best hex, by rw [← hbd, hbid]⟩
            · exact ⟨b, replaceById_mem_of_ne d best b hb hbd, hbid⟩
          · simp only [List.mem_singleton] at hp'
            subst hp'
            exact ⟨p, replaceById_self_mem p best hex, hpid⟩
      · intro b hb
        rcases replaceById_mem_ne d best hnd b hb with rfl | ⟨hbm, hbne⟩
        · refine ⟨List.mem_append_right _ (by simp), ?_⟩
          intro p hp hpid
          rcases List.mem_append.mp hp with hp' | hp'
          · have hpm := (hmin prev hprevmem).2 p hp' (by rw [hpid, hprevid])
            exact le_of_lt (lt_of_lt_of_le hlt hpm)
          · simp only [List.mem_singleton] at hp'
            subst hp'
            exact le_refl _
        · refine ⟨List.mem_append_left _ (hmin b hbm).1, ?_⟩
          intro p hp hpid
          rcases List.mem_append.mp hp with hp' | hp'
          · exact (hmin b hbm).2 p hp' hpid
          · simp only [List.mem_singleton] at hp'
            subst hp'
            exact absurd hpid (fun he => hbne he.symm)
    · rw [if_neg hlt]
      refine ⟨hnd, ?_, ?_⟩
      · intro id
        constructor
        · rintro ⟨b, hb, hbid⟩
          obtain ⟨p, hp, hpid⟩ := (hiff id).mp ⟨b, hb, hbid⟩
          exact ⟨p, List.mem_append_left _ hp, hpid⟩
        · rintro ⟨p, hp, hpid⟩
          rcases List.mem_append.mp hp with hp' | hp'
          · exact (hiff id).mpr ⟨p, hp', hpid⟩
          · simp only [List.mem_singleton] at hp'
            subst hp'
            exact ⟨prev, hprevmem, by rw [hprevid, hpid]⟩
      · intro b hb
        obtain ⟨hbp, hbmin⟩ := hmin b hb
        refine ⟨List.mem_append_left _ hbp, ?_⟩
        intro p hp hpid
        rcases List.mem_append.mp hp with hp' | hp'
        · exact hbmin p hp' hpid
        · simp only [List.mem_singleton] at hp'
          subst hp'
          have hbprev : b = prev :=
            List.inj_on_of_nodup_map hnd hb hprevmem (by rw [← hpid, hprevid])
          rw [hbprev]
          exact not_lt.mp hlt

theorem foldl_dedup_inv :
    ∀ (docs processed best : List RetrievedDoc), DedupInv processed best →
      DedupInv (processed ++ docs) (docs.foldl dedupStep best) := by
  intro docs
  induction docs with
  | nil =>
    intro processed best h
    simpa using h
  | cons d ds ih =>
    intro processed best h
    have h1 := dedupStep_inv processed best d h
    have h2 := ih (processed ++ [d]) (dedupStep best d) h1
    simpa [List.append_assoc] using h2

/-- C4: deduplication returns entries whose ids are pairwise distinct
and cover exactly the ids occurring in the input, and every returned
entry is an input occurrence of minimal distance among the input entries
sharing its `doc_id`. -/
theorem dedup_by_id_spec (docs : List RetrievedDoc) :
    ((_dedup_by_id_keep_best_distance docs).map RetrievedDoc.doc_id).Nodup
    ∧ (∀ id, (∃ b ∈ _dedup_by_id_keep_best_distance docs, b.doc_id = id)
        ↔ ∃ p ∈ docs, p.doc_id = id)
    ∧ ∀ b ∈ _dedup_by_id_keep_best_distance docs,
        b ∈ docs ∧ ∀ p ∈ docs, p.doc_id = b.doc_id → b.distance ≤ p.distance := by
  have h0 : DedupInv [] [] := by
    refine ⟨by simp, ?_, ?_⟩
    · intro id
      constructor
      · rintro ⟨b, hb, -⟩
        exact absurd hb (List.not_mem_nil b)
      · rintro ⟨p, hp, -⟩
        exact absurd hp (List.not_mem_nil p)
    · intro b hb
      exact absurd hb (List.not_mem_nil b)
  have h := foldl_dedup_inv docs [] [] h0
  rw [List.nil_append] at h
  exact h

/-- C4 witness: the specification applied to a concrete duplicate list,
discharging the membership hypotheses of the minimality conjunct: the
second occurrence of id `"a"` (distance 0) is kept and is bounded by the
first occurrence (distance 1). -/
theorem dedup_by_id_spec_witness :
    (⟨2, "a", "", "", 0, none⟩ : RetrievedDoc)
        ∈ [(⟨0, "a", "", "", 1, none⟩ : RetrievedDoc), ⟨1, "b", "", "", 2, none⟩,
            ⟨2, "a", "", "", 0, none⟩]
    ∧ (⟨2, "a", "", "", (0 : ℚ), none⟩ : RetrievedDoc).distance
        ≤ (⟨0, "a", "", "", (1 : ℚ), none⟩ : RetrievedDoc).distance :=
  ⟨((dedup_by_id_spec
      [⟨0, "a", "", "", 1, none⟩, ⟨1, "b", "", "", 2, none⟩, ⟨2, "a", "", "", 0, none⟩]).2.2
      ⟨2, "a", "", "", 0, none⟩ (by decide)).1,
   ((dedup_by_id_spec
      [⟨0, "a", "", "", 1, none⟩, ⟨1, "b", "", "", 2, none⟩, ⟨2, "a", "", "", 0, none⟩]).2.2
      ⟨2, "a", "", "", 0, none⟩ (by decide)).2
      ⟨0, "a", "", "", 1, none⟩ (by decide) (by decide)⟩

/-! ### C6: citation extraction -/

theorem expectC_eq (ch : Char) :
    ∀ (l r : List Char), expectC ch l = some r → l = ch :: r := by
  intro l r h
  cases l with
  | nil => simp [expectC] at h
  | cons c rest =>
    simp only [expectC] at h
    by_cases hc : c = ch
    · rw [if_pos hc] at h
      rw [hc, Option.some.inj h]
    · rw [if_neg hc] at h
      exact absurd h (by simp)

theorem matchDigitsN_eq :
    ∀ (n : ℕ) (l d r : List Char), matchDigitsN n l = some (d, r) →
      l = d ++ r ∧ d.length = n ∧ d.all Char.isDigit = true := by
  intro n
  induction n with
  | zero =>
    intro l d r h
    simp only [matchDigitsN] at h
    have hd : ([] : List Char) = d := congrArg Prod.fst (Option.some.inj h)
    have hr : l = r := congrArg Prod.snd (Option.some.inj h)
    subst hr
    rw [← hd]
    simp
  | succ m ih =>
    intro l d r h
    cases l with
    | nil => simp [matchDigitsN] at h
    | cons c rest =>
      simp only [matchDigitsN] at h
      by_cases hc : c.isDigit
      · rw [if_pos hc] at h
        cases hm : matchDigitsN m rest with
        | none => rw [hm] at h; simp at h
        | some p =>
          rw [hm] at h
          simp only [Option.map_some'] at h
          have hd : c :: p.1 = d := congrArg Prod.fst (Option.some.inj h)
          have hr : p.2 = r := congrArg Prod.snd (Option.some.inj h)
          obtain ⟨he, hlen, hall⟩ := ih rest p.1 p.2 (by rw [hm])
          subst hr
          rw [← hd]
          refine ⟨by rw [he]; simp, by simp [hlen], ?_⟩
          simp only [List.all_cons]
          rw [hc, hall]
          rfl
      · rw [if_neg hc] at h
        exact absurd h (by simp)

theorem matchDigitsN_append :
    ∀ (d : List Char), d.all Char.isDigit = true →
      ∀ (r : List Char), matchDigitsN d.length (d ++ r) = some (d, r) := by
  intro d
  induction d with
  | nil => intro _ r; rfl
  | cons c rest ih =>
    intro hall r
    simp only [List.all_cons, Bool.and_eq_true] at hall
    simp only [matchDigitsN, List.length_cons, List.cons_append, List.append_eq]
    rw [if_pos hall.1]
    rw [ih hall.2 r]
    rfl

theorem takeDigits_eq :
    ∀ (l d r : List Char), takeDigits l = (d, r) →
      l = d ++ r ∧ d.all Char.isDigit = true
        ∧ ∀ c cs, r = c :: cs → c.isDigit = false := by
  intro l
  induction l with
  | nil =>
    intro d r h
    simp only [takeDigits] at h
    have hd : ([] : List Char) = d := congrArg Prod.fst h
    have hr : ([] : List Char) = r := congrArg Prod.snd h
    rw [← hd, ← hr]
    exact ⟨rfl, rfl, fun c cs hc => by simp at hc⟩
  | cons c rest ih =>
    intro d r h
    simp only [takeDigits] at h
    by_cases hc : c.isDigit
    · rw [if_pos hc] at h
      have hd : c :: (takeDigits rest).1 = d := congrArg Prod.fst h
      have hr : (takeDigits rest).2 = r := congrArg Prod.snd h
      obtain ⟨he, hall, hmax⟩ := ih (takeDigits rest).1 (takeDigits rest).2 rfl
      subst hd
      subst hr
      refine ⟨by rw [List.cons_append, ← he], ?_, hmax⟩
      simp only [List.all_cons]
      rw [hc, hall]
      rfl
    · rw [if_neg hc] at h
      have hd : ([] : List Char) = d := congrArg Prod.fst h
      have hr : c :: rest = r := congrArg Prod.snd h
      subst hd
      subst hr
      refine ⟨rfl, rfl, ?_⟩
      intro x xs hx
      have hxc : c = x := (List.cons.inj hx).1
      rw [← hxc]
      simpa using hc

theorem takeDigits_append :
    ∀ (d : List Char), d.all Char.isDigit = true →
      ∀ (r : List Char), (∀ c cs, r = c :: cs → c.isDigit = false) →
        takeDigits (d ++ r) = (d, r) := by
  intro d
  induction d with
  | nil =>
    intro _ r hr
    cases r with
    | nil => rfl
    | cons c cs =>
      simp only [List.nil_append, takeDigits]
      rw [if_neg (by simp [hr c cs rfl])]
  | cons x xs ih =>
    intro hall r hr
    simp only [List.all_cons, Bool.and_eq_true] at hall
    simp only [List.cons_append, takeDigits, List.append_eq]
    rw [if_pos hall.1]
    rw [ih hall.2 r hr]

theorem toList_mk (cs : List Char) : (String.mk cs).toList = cs := rfl

theorem mk_toList (s : String) : String.mk s.toList = s := by
  cases s
  rfl

theorem citationShape_decomp (w : String) (h : citationShape w = true) :
    ∃ d1 d2 d3 : List Char, w.toList = d1 ++ '.' :: (d2 ++ 'v' :: d3)
      ∧ d1.length = 4 ∧ d2.length = 5 ∧ d3.isEmpty = false
      ∧ d1.all Char.isDigit = true ∧ d2.all Char.isDigit = true
      ∧ d3.all Char.isDigit = true := by
  unfold citationShape at h
  cases h1 : matchDigitsN 4 w.toList with
  | none => rw [h1] at h; simp at h
  | some p1 =>
    rw [h1] at h
    obtain ⟨d1, r2⟩ := p1
    dsimp only at h
    cases h2 : expectC '.' r2 with
    | none => rw [h2] at h; simp at h
    | some r3 =>
      rw [h2] at h
      dsimp only at h
      cases h3 : matchDigitsN 5 r3 with
      | none => rw [h3] at h; simp at h
      | some p3 =>
        rw [h3] at h
        obtain ⟨d2, r4⟩ := p3
        dsimp only at h
        cases h4 : expectC 'v' r4 with
        | none => rw [h4] at h; simp at h
        | some r5 =>
          rw [h4] at h
          dsimp only at h
          cases h5 : takeDigits r5 with
          | mk d3 r6 =>
            rw [h5] at h
            dsimp only at h
            simp only [Bool.and_eq_true, Bool.not_eq_true'] at h
            obtain ⟨he1, hlen1, hall1⟩ := matchDigitsN_eq 4 w.toList d1 r2 h1
            have he2 := expectC_eq '.' r2 r3 h2
            obtain ⟨he3, hlen2, hall2⟩ := matchDigitsN_eq 5 r3 d2 r4 h3
            have he4 := expectC_eq 'v' r4 r5 h4
            obtain ⟨he5, hall3, _⟩ := takeDigits_eq r5 d3 r6 h5
            have hr6 : r6 = [] := by
              cases r6 with
              | nil => rfl
              | cons a as => simp at h
            refine ⟨d1, d2, d3, ?_, hlen1, hlen2, h.1, hall1, hall2, hall3⟩
            rw [he1, he2, he3, he4, he5, hr6]
            simp

theorem matchCitationAt_sound :
    ∀ (l : List Char) (id : String) (rem : List Char),
      matchCitationAt l = some (id, rem) →
      l = '[' :: (id.toList ++ ']' :: rem) ∧ citationShape id = true := by
  intro l id rem h
  unfold matchCitationAt at h
  cases h0 : expectC '[' l with
  | none => rw [h0] at h; simp at h
  | some r1 =>
    rw [h0] at h
    dsimp only at h
    cases h1 : matchDigitsN 4 r1 with
    | none => rw [h1] at h; simp at h
    | some p1 =>
      rw [h1] at h
      obtain ⟨d1, r2⟩ := p1
      dsimp only at h
      cases h2 : expectC '.' r2 with
      | none => rw [h2] at h; simp at h
      | some r3 =>
        rw [h2] at h
        dsimp only at h
        cases h3 : matchDigitsN 5 r3 with
        | none => rw [h3] at h; simp at h
        | some p3 =>
          rw [h3] at h
          obtain ⟨d2, r4⟩ := p3
          dsimp only at h
          cases h4 : expectC 'v' r4 with
          | none => rw [h4] at h; simp at h
          | some r5 =>
            rw [h4] at h
            dsimp only at h
            cases h5 : takeDigits r5 with
            | mk d3 r6 =>
              rw [h5] at h
              dsimp only at h
              by_cases hne : d3.isEmpty
              · rw [if_pos hne] at h
                simp at h
              · rw [if_neg hne] at h
                cases h6 : expectC ']' r6 with
                | none => rw [h6] at h; simp at h
                | some r7 =>
                  rw [h6] at h
                  dsimp only at h
                  have hid : String.mk (d1 ++ '.' :: (d2 ++ 'v' :: d3)) = id :=
                    congrArg Prod.fst (Option.some.inj h)
                  have hrem : r7 = rem := congrArg Prod.snd (Option.some.inj h)
                  have he0 := expectC_eq '[' l r1 h0
                  obtain ⟨he1, hlen1, hall1⟩ := matchDigitsN_eq 4 r1 d1 r2 h1
                  have he2 := expectC_eq '.' r2 r3 h2
                  obtain ⟨he3, hlen2, hall2⟩ := matchDigitsN_eq 5 r3 d2 r4 h3
                  have he4 := expectC_eq 'v' r4 r5 h4
                  obtain ⟨he5, hall3, hmax⟩ := takeDigits_eq r5 d3 r6 h5
                  have he6 := expectC_eq ']' r6 r7 h6
                  have htl : id.toList = d1 ++ '.' :: (d2 ++ 'v' :: d3) := by
                    rw [← hid]
                    rfl
                  constructor
                  · rw [he0, he1, he2, he3, he4, he5, he6, hrem, htl]
                    simp
                  · have hne' : d3.isEmpty = false := by
                      simpa using hne
                    have e1 : matchDigitsN 4 (d1 ++ '.' :: (d2 ++ 'v' :: d3))
                        = some (d1, '.' :: (d2 ++ 'v' :: d3)) := by
                      rw [← hlen1]
                      exact matchDigitsN_append d1 hall1 _
                    have e2 : expectC '.' ('.' :: (d2 ++ 'v' :: d3))
                        = some (d2 ++ 'v' :: d3) := by
                      simp [expectC]
                    have e3 : matchDigitsN 5 (d2 ++ 'v' :: d3) = some (d2, 'v' :: d3) := by
                      rw [← hlen2]
                      exact matchDigitsN_append d2 hall2 _
                    have e4 : expectC 'v' ('v' :: d3) = some d3 := by
                      simp [expectC]
                    have e5 : takeDigits d3 = (d3, []) := by
                      have := takeDigits_append d3 hall3 []
                        (by intro c cs hc; simp at hc)
                      simpa using this
                    simp only [citationShape, htl, e1, e2, e3, e4, e5]
                    simp [hne']

theorem matchCitationAt_complete (w : String) (h : citationShape w = true)
    (post : List Char) :
    matchCitationAt ('[' :: (w.toList ++ ']' :: post)) = some (w, post) := by
  obtain ⟨d1, d2, d3, htl, hlen1, hlen2, hne, hall1, hall2, hall3⟩ := citationShape_decomp w h
  have harr : w.toList ++ ']' :: post
      = d1 ++ '.' :: (d2 ++ 'v' :: (d3 ++ ']' :: post)) := by
    rw [htl]
    simp
  have e1 : matchDigitsN 4 (d1 ++ '.' :: (d2 ++ 'v' :: (d3 ++ ']' :: post)))
      = some (d1, '.' :: (d2 ++ 'v' :: (d3 ++ ']' :: post))) := by
    rw [← hlen1]
    exact matchDigitsN_append d1 hall1 _
  have e2 : expectC '.' ('.' :: (d2 ++ 'v' :: (d3 ++ ']' :: post)))
      = some (d2 ++ 'v' :: (d3 ++ ']' :: post)) := by
    simp [expectC]
  have e3 : matchDigitsN 5 (d2 ++ 'v' :: (d3 ++ ']' :: post))
      = some (d2, 'v' :: (d3 ++ ']' :: post)) := by
    rw [← hlen2]
    exact matchDigitsN_append d2 hall2 _
  have e4 : expectC 'v' ('v' :: (d3 ++ ']' :: post)) = some (d3 ++ ']' :: post) := by
    simp [expectC]
  have e5 : takeDigits (d3 ++ ']' :: post) = (d3, ']' :: post) := by
    apply takeDigits_append d3 hall3
    intro c cs hc
    have hcb : ']' = c := (List.cons.inj hc).1
    rw [← hcb]
    decide
  have e6 : expectC ']' (']' :: post) = some post := by
    simp [expectC]
  have e0 : expectC '[' ('[' :: (d1 ++ '.' :: (d2 ++ 'v' :: (d3 ++ ']' :: post))))
      = some (d1 ++ '.' :: (d2 ++ 'v' :: (d3 ++ ']' :: post))) := by
    simp [expectC]
  rw [harr]
  simp only [matchCitationAt, e0, e1, e2, e3, e4, e5, hne, e6]
  have hmk : String.mk (d1 ++ '.' :: (d2 ++ 'v' :: d3)) = w := by
    rw [← htl]
    exact mk_toList w
  rw [hmk]
  simp

theorem matchCitationAt_length (l : List Char) (id : String) (rem : List Char)
    (h : matchCitationAt l = some (id, rem)) : rem.length < l.length := by
  have := (matchCitationAt_sound l id rem h).1
  rw [this]
  simp only [List.length_cons, List.length_append]
  omega

theorem citationShape_no_bracket (w : String) (h : citationShape w = true) :
    ∀ ch ∈ w.toList, ch ≠ '[' := by
  obtain ⟨d1, d2, d3, htl, _, _, _, hall1, hall2, hall3⟩ := citationShape_decomp w h
  intro ch hch
  rw [htl] at hch
  have hdig : ∀ (c : Char), c.isDigit = true → c ≠ '[' := by
    intro c hc he
    rw [he] at hc
    exact absurd hc (by decide)
  rcases List.mem_append.mp hch with h1 | h2
  · exact hdig ch (by
      have := List.all_eq_true.mp hall1 ch h1
      simpa using this)
  · rcases List.mem_cons.mp h2 with rfl | h3
    · decide
    · rcases List.mem_append.mp h3 with h4 | h5
      · exact hdig ch (by
          have := List.all_eq_true.mp hall2 ch h4
          simpa using this)
      · rcases List.mem_cons.mp h5 with rfl | h6
        · decide
        · exact hdig ch (by
            have := List.all_eq_true.mp hall3 ch h6
            simpa using this)

theorem split_no_bracket :
    ∀ (u : List Char) (z : Char) (v p q : List Char),
      (∀ ch ∈ u, ch ≠ '[') → z ≠ '[' →
      u ++ z :: v = p ++ '[' :: q →
      ∃ pp, p = u ++ z :: pp ∧ v = pp ++ '[' :: q := by
  intro u
  induction u with
  | nil =>
    intro z v p q _ hz heq
    cases p with
    | nil =>
      simp only [List.nil_append] at heq
      exact absurd (List.cons.inj heq).1 hz
    | cons a p' =>
      simp only [List.nil_append, List.cons_append] at heq
      obtain ⟨hza, hrest⟩ := List.cons.inj heq
      refine ⟨p', ?_, hrest⟩
      rw [hza]
      rfl
  | cons b u' ih =>
    intro z v p q hu hz heq
    cases p with
    | nil =>
      simp only [List.cons_append, List.nil_append] at heq
      exact absurd (List.cons.inj heq).1 (hu b (List.mem_cons_self _ _))
    | cons a p' =>
      simp only [List.cons_append] at heq
      obtain ⟨hba, hrest⟩ := List.cons.inj heq
      obtain ⟨pp, hp', hv⟩ := ih z v p' q
        (fun ch hch => hu ch (List.mem_cons_of_mem _ hch)) hz hrest
      exact ⟨pp, by rw [← hba, hp']; rfl, hv⟩

theorem scanAux_sound :
    ∀ (fuel : ℕ) (l : List Char), l.length ≤ fuel →
      ∀ id ∈ scanAux fuel l, citationShape id = true
        ∧ ∃ pre post, l = pre ++ '[' :: (id.toList ++ ']' :: post) := by
  intro fuel
  induction fuel with
  | zero =>
    intro l _ id hid
    simp [scanAux] at hid
  | succ f ih =>
    intro l hlen id hid
    cases l with
    | nil => simp [scanAux] at hid
    | cons c rest =>
      simp only [scanAux] at hid
      cases hm : matchCitationAt (c :: rest) with
      | some p =>
        obtain ⟨i, rem⟩ := p
        rw [hm] at hid
        dsimp only at hid
        have hs := matchCitationAt_sound (c :: rest) i rem hm
        have hrem : rem.length ≤ f := by
          have hlt := matchCitationAt_length (c :: rest) i rem hm
          simp only [List.length_cons] at hlt hlen
          omega
        rcases List.mem_cons.mp hid with rfl | hid'
        · exact ⟨hs.2, [], rem, hs.1⟩
        · obtain ⟨hsh, pre, post, heq⟩ := ih rem hrem id hid'
          refine ⟨hsh, '[' :: (i.toList ++ ']' :: pre), post, ?_⟩
          rw [hs.1, heq]
          simp
      | none =>
        rw [hm] at hid
        dsimp only at hid
        have hrest : rest.length ≤ f := by
          simp only [List.length_cons] at hlen
          omega
        obtain ⟨hsh, pre, post, heq⟩ := ih rest hrest id hid
        refine ⟨hsh, c :: pre, post, ?_⟩
        rw [heq]
        rfl

theorem scanAux_complete :
    ∀ (fuel : ℕ) (l : List Char), l.length ≤ fuel →
      ∀ (w : String) (pre post : List Char), citationShape w = true →
        l = pre ++ '[' :: (w.toList ++ ']' :: post) → w ∈ scanAux fuel l := by
  intro fuel
  induction fuel with
  | zero =>
    intro l hlen w pre post _ heq
    exfalso
    have h0 : l.length = 0 := by omega
    rw [heq] at h0
    simp at h0
  | succ f ih =>
    intro l hlen w pre post hsh heq
    cases l with
    | nil =>
      exfalso
      have := congrArg List.length heq
      simp at this
      omega
    | cons c rest =>
      simp only [scanAux]
      have hrest : rest.length ≤ f := by
        simp only [List.length_cons] at hlen
        omega
      cases hm : matchCitationAt (c :: rest) with
      | some p =>
        obtain ⟨i, rem⟩ := p
        dsimp only
        have hs := matchCitationAt_sound (c :: rest) i rem hm
        cases pre with
        | nil =>
          simp only [List.nil_append] at heq
          have hcomp := matchCitationAt_complete w hsh post
          rw [← heq, hm] at hcomp
          have hiw : i = w := congrArg Prod.fst (Option.some.inj hcomp)
          rw [hiw]
          exact List.mem_cons_self _ _
        | cons a pre' =>
          simp only [List.cons_append] at heq
          obtain ⟨hca, hrest'⟩ := List.cons.inj heq
          obtain ⟨-, hrest2⟩ := List.cons.inj hs.1
          have hnb := citationShape_no_bracket i hs.2
          obtain ⟨pp, hp', hv⟩ := split_no_bracket i.toList ']' rem pre'
            (w.toList ++ ']' :: post) hnb (by decide)
            (by rw [← hrest2, hrest'])
          have hremlen : rem.length ≤ f := by
            have hlt := matchCitationAt_length (c :: rest) i rem hm
            simp only [List.length_cons] at hlt hlen
            omega
          exact List.mem_cons_of_mem _ (ih rem hremlen w pp post hsh hv)
      | none =>
        dsimp only
        cases pre with
        | nil =>
          exfalso
          simp only [List.nil_append] at heq
          have hcomp := matchCitationAt_complete w hsh post
          rw [← heq, hm] at hcomp
          simp at hcomp
        | cons a pre' =>
          simp only [List.cons_append] at heq
          obtain ⟨-, hrest'⟩ := List.cons.inj heq
          exact ih rest hrest w pre' post hsh hrest'

theorem mem_seenGo :
    ∀ (l seen : List String) (a : String),
      a ∈ seenGo seen l ↔ (a ∈ l ∧ a ∉ seen) := by
  intro l
  induction l with
  | nil =>
    intro seen a
    simp [seenGo]
  | cons x xs ih =>
    intro seen a
    unfold seenGo
    by_cases hx : x ∈ seen
    · rw [if_pos hx, ih seen a]
      constructor
      · rintro ⟨h1, h2⟩
        exact ⟨List.mem_cons_of_mem _ h1, h2⟩
      · rintro ⟨h1, h2⟩
        rcases List.mem_cons.mp h1 with rfl | h1'
        · exact absurd hx h2
        · exact ⟨h1', h2⟩
    · rw [if_neg hx]
      constructor
      · intro h
        rcases List.mem_cons.mp h with rfl | h'
        · exact ⟨List.mem_cons_self _ _, hx⟩
        · obtain ⟨h1, h2⟩ := (ih (x :: seen) a).mp h'
          exact ⟨List.mem_cons_of_mem _ h1,
            fun hc => h2 (List.mem_cons_of_mem _ hc)⟩
      · rintro ⟨h1, h2⟩
        by_cases hax : a = x
        · subst hax
          exact List.mem_cons_self _ _
        · apply List.mem_cons_of_mem
          apply (ih (x :: seen) a).mpr
          refine ⟨?_, ?_⟩
          · rcases List.mem_cons.mp h1 with rfl | h1'
            · exact absurd rfl hax
            · exact h1'
          · intro hc
            rcases List.mem_cons.mp hc with h | h
            · exact hax h
            · exact h2 h

theorem nodup_seenGo : ∀ (l seen : List String), (seenGo seen l).Nodup := by
  intro l
  induction l with
  | nil =>
    intro seen
    simp [seenGo]
  | cons x xs ih =>
    intro seen
    unfold seenGo
    by_cases hx : x ∈ seen
    · rw [if_pos hx]
      exact ih seen
    · rw [if_neg hx]
      rw [List.nodup_cons]
      refine ⟨?_, ih (x :: seen)⟩
      intro hc
      exact ((mem_seenGo xs (x :: seen) x).mp hc).2 (List.mem_cons_self _ _)

theorem idxOf_seenGo_order :
    ∀ (l seen : List String) (a b : String),
      a ∈ seenGo seen l → b ∈ seenGo seen l →
      (idxOf a (seenGo seen l) < idxOf b (seenGo seen l) ↔ idxOf a l < idxOf b l) := by
  intro l
  induction l with
  | nil =>
    intro seen a b ha
    simp [seenGo] at ha
  | cons x xs ih =>
    intro seen a b ha hb
    unfold seenGo at ha hb ⊢
    by_cases hx : x ∈ seen
    · rw [if_pos hx] at ha hb ⊢
      have hane : x ≠ a := fun he => ((mem_seenGo xs seen a).mp ha).2 (he ▸ hx)
      have hbne : x ≠ b := fun he => ((mem_seenGo xs seen b).mp hb).2 (he ▸ hx)
      have h1 : idxOf a (x :: xs) = idxOf a xs + 1 := by
        simp only [idxOf]
        rw [if_neg hane]
      have h2 : idxOf b (x :: xs) = idxOf b xs + 1 := by
        simp only [idxOf]
        rw [if_neg hbne]
      rw [h1, h2, ih seen a b ha hb]
      omega
    · rw [if_neg hx] at ha hb ⊢
      by_cases hax : a = x
      · subst hax
        by_cases hbx : b = a
        · subst hbx
          omega
        · have hb' : b ∈ seenGo (a :: seen) xs := by
            rcases List.mem_cons.mp hb with h | h
            · exact absurd h hbx
            · exact h
          have h1 : idxOf a (a :: seenGo (a :: seen) xs) = 0 := by
            simp [idxOf]
          have h2 : idxOf b (a :: seenGo (a :: seen) xs)
              = idxOf b (seenGo (a :: seen) xs) + 1 := by
            simp only [idxOf]
            rw [if_neg (fun he => hbx he.symm)]
          have h3 : idxOf a (a :: xs) = 0 := by
            simp [idxOf]
          have h4 : idxOf b (a :: xs) = idxOf b xs + 1 := by
            simp only [idxOf]
            rw [if_neg (fun he => hbx he.symm)]
          rw [h1, h2, h3, h4]
          omega
      · by_cases hbx : b = x
        · subst hbx
          have ha' : a ∈ seenGo (b :: seen) xs := by
            rcases List.mem_cons.mp ha with h | h
            · exact absurd h hax
            · exact h
          have h1 : idxOf b (b :: seenGo (b :: seen) xs) = 0 := by
            simp [idxOf]
          have h2 : idxOf a (b :: seenGo (b :: seen) xs)
              = idxOf a (seenGo (b :: seen) xs) + 1 := by
            simp only [idxOf]
            rw [if_neg (fun he => hax he.symm)]
          have h3 : idxOf b (b :: xs) = 0 := by
            simp [idxOf]
          have h4 : idxOf a (b :: xs) = idxOf a xs + 1 := by
            simp only [idxOf]
            rw [if_neg (fun he => hax he.symm)]
          rw [h1, h2, h3, h4]
          omega
        · have ha' : a ∈ seenGo (x :: seen) xs := by
            rcases List.mem_cons.mp ha with h | h
            · exact absurd h hax
            · exact h
          have hb' : b ∈ seenGo (x :: seen) xs := by
            rcases List.mem_cons.mp hb with h | h
            · exact absurd h hbx
            · exact h
          have h1 : idxOf a (x :: seenGo (x :: seen) xs)
              = idxOf a (seenGo (x :: seen) xs) + 1 := by
            simp only [idxOf]
            rw [if_neg (fun he => hax he.symm)]
          have h2 : idxOf b (x :: seenGo (x :: seen) xs)
              = idxOf b (seenGo (x :: seen) xs) + 1 := by
            simp only [idxOf]
            rw [if_neg (fun he => hbx he.symm)]
          have h3 : idxOf a (x :: xs) = idxOf a xs + 1 := by
            simp only [idxOf]
            rw [if_neg (fun he => hax he.symm)]
          have h4 : idxOf b (x :: xs) = idxOf b xs + 1 := by
            simp only [idxOf]
            rw [if_neg (fun he => hbx he.symm)]
          rw [h1, h2, h3, h4]
          have hiff := ih (x :: seen) a b ha' hb'
          omega

/-- C6: `extract_used_ids` returns a duplicate-free list containing
exactly the identifiers found by the left-to-right `CITATION_RE` scan of
the answer; every returned identifier matches the fixed
four-digits/dot/five-digits/version pattern and occurs bracketed in the
text; conversely every bracketed occurrence of a pattern-shaped
identifier is returned; and the returned order is the first-seen order
of the scan. -/
theorem extract_used_ids_spec (s : String) :
    (extract_used_ids s).Nodup
    ∧ (∀ id, id ∈ extract_used_ids s ↔ id ∈ scanCitations s.toList)
    ∧ (∀ id, id ∈ extract_used_ids s → citationShape id = true
        ∧ ∃ pre post, s.toList = pre ++ '[' :: (id.toList ++ ']' :: post))
    ∧ (∀ (w : String) (pre post : List Char), citationShape w = true →
        s.toList = pre ++ '[' :: (w.toList ++ ']' :: post) → w ∈ extract_used_ids s)
    ∧ (∀ a b, a ∈ extract_used_ids s → b ∈ extract_used_ids s →
        (idxOf a (extract_used_ids s) < idxOf b (extract_used_ids s)
          ↔ idxOf a (scanCitations s.toList) < idxOf b (scanCitations s.toList))) := by
  have hm : ∀ id, id ∈ extract_used_ids s ↔ id ∈ scanCitations s.toList := by
    intro id
    unfold extract_used_ids
    rw [mem_seenGo]
    simp
  refine ⟨nodup_seenGo _ _, hm, ?_, ?_, ?_⟩
  · intro id hid
    exact scanAux_sound s.toList.length s.toList (le_refl _) id ((hm id).mp hid)
  · intro w pre post hsh heq
    exact (hm w).mpr
      (scanAux_complete s.toList.length s.toList (le_refl _) w pre post hsh heq)
  · intro a b ha hb
    exact idxOf_seenGo_order (scanCitations s.toList) [] a b ha hb

/-- C6 witness: the completeness conjunct applied at a concrete answer
text, discharging the shape and decomposition hypotheses: the bracketed
identifier is extracted. -/
theorem extract_used_ids_spec_witness :
    "2510.02964v1" ∈ extract_used_ids "see [2510.02964v1] twice [2510.02964v1]" :=
  (extract_used_ids_spec "see [2510.02964v1] twice [2510.02964v1]").2.2.2.1
    "2510.02964v1" "see ".toList " twice [2510.02964v1]".toList
    (by decide) (by decide)
